import Mathlib

/-!
The ibc-demo application: wiring, zero-height genesis export, address prefixes.

A shallow embedding of the Go sources `types/address.go`, `app/app.go` and
`app/export.go`.

* Go `const` strings become `String` definitions.
* A Go `map[string]V` becomes an association list with unique keys (`GoMap`).
* The key-value stores behind an `sdk.Context` are shared by reference in Go;
  here they are an explicit `Machine` (the stores plus the log of keeper calls)
  threaded through every operation.  `log.Fatal` and `panic` end a run with
  an `Abort` and the machine as it stood at that point.
* Functions of the application framework whose bodies are not part of this
  repository (bech32 coding, the crisis invariants, the validator-set update,
  genesis export, JSON coding, the module manager hooks) are fields of the
  structures `Framework` and `ModuleManager`: every theorem holds for all of them.
-/

set_option autoImplicit false

/-! ## `types/address.go` -/

namespace types

def AddrLen : Nat := 20
def Bech32MainPrefix : String := "asset"

def CoinType : Nat := 118
def FullFundraiserPath : String := "44'/118'/0'/0/0"
def PrefixAccount : String := "acc"
def PrefixValidator : String := "val"
def PrefixConsensus : String := "cons"
def PrefixPublic : String := "pub"
def PrefixOperator : String := "oper"
def PrefixAddress : String := "addr"

def Bech32PrefixAccAddr : String := Bech32MainPrefix
def Bech32PrefixAccPub : String := Bech32MainPrefix ++ PrefixPublic
def Bech32PrefixValAddr : String := Bech32MainPrefix ++ PrefixValidator ++ PrefixOperator
def Bech32PrefixValPub : String :=
  Bech32MainPrefix ++ PrefixValidator ++ PrefixOperator ++ PrefixPublic
def Bech32PrefixConsAddr : String := Bech32MainPrefix ++ PrefixValidator ++ PrefixConsensus
def Bech32PrefixConsPub : String :=
  Bech32MainPrefix ++ PrefixValidator ++ PrefixConsensus ++ PrefixPublic

/-- The six human-readable parts, in the order they are declared. -/
def allBech32Prefixes : List String :=
  [Bech32PrefixAccAddr, Bech32PrefixAccPub, Bech32PrefixValAddr,
   Bech32PrefixValPub, Bech32PrefixConsAddr, Bech32PrefixConsPub]

end types

namespace app

/-! ## Go maps -/

/-- A Go `map[string]V`: an association list in which no key occurs twice. -/
abbrev GoMap (V : Type) := List (String × V)

/-- The statement `m[k] = v`: overwrite the entry of `k`, or add one. -/
def GoMap.set {V : Type} : GoMap V → String → V → GoMap V
  | [], k, v => [(k, v)]
  | (k', v') :: rest, k, v =>
    if k' = k then (k, v) :: rest else (k', v') :: GoMap.set rest k v

/-- The expression `v, ok := m[k]`. -/
def GoMap.get {V : Type} : GoMap V → String → Option V
  | [], _ => none
  | (k', v') :: rest, k => if k' = k then some v' else GoMap.get rest k

/-- The expression `m[k]` of a `map[string]bool`: the zero value `false`
when the key is absent. -/
def GoMap.index (m : GoMap Bool) (k : String) : Bool := (GoMap.get m k).getD false

/-- A map literal `map[string]V{k1: v1, ...}` whose keys are evaluated at run
time: a later entry with an equal key overwrites the earlier one. -/
def GoMap.literal {V : Type} (entries : List (String × V)) : GoMap V :=
  entries.foldl (fun m kv => GoMap.set m kv.1 kv.2) []

/-! ## Names exported by the framework packages -/

def genutilModuleName : String := "genutil"
def authModuleName : String := "auth"
def bankModuleName : String := "bank"
def crisisModuleName : String := "crisis"
def supplyModuleName : String := "supply"
def govModuleName : String := "gov"
def slashingModuleName : String := "slashing"
def stakingModuleName : String := "staking"
def upgradeModuleName : String := "upgrade"
def evidenceModuleName : String := "evidence"
def ibcModuleName : String := "ibc"
/-- The name under which the `ibctransfer` application module registers. -/
def ibctransferModuleName : String := "transfer"

def authFeeCollectorName : String := "fee_collector"
def stakingBondedPoolName : String := "bonded_tokens_pool"
def stakingNotBondedPoolName : String := "not_bonded_tokens_pool"

def supplyMinter : String := "minter"
def supplyBurner : String := "burner"
def supplyStaking : String := "staking"

/-! ## `app/app.go`: the permission table -/

/-- The variable `maccPerms`.  Its last key is the result of the call
`ibctransfer.GetModuleAccountName()`, a parameter here.  A `nil` permission
slice is the empty list. -/
def maccPerms (transferAccountName : String) : GoMap (List String) :=
  GoMap.literal
    [ (authFeeCollectorName, []),
      (stakingBondedPoolName, [supplyBurner, supplyStaking]),
      (stakingNotBondedPoolName, [supplyBurner, supplyStaking]),
      (govModuleName, [supplyBurner]),
      (transferAccountName, [supplyMinter, supplyBurner]) ]

/-- The loop of `ModuleAccountAddrs` run over the entries `visited`: Go leaves
the order in which `range` visits a map unspecified, so the order is an
argument.  `moduleAddress acc` is `supply.NewModuleAddress(acc).String()`. -/
def ModuleAccountAddrsRange (moduleAddress : String → String)
    (visited : List (String × List String)) : GoMap Bool :=
  visited.foldl (fun modAccAddrs kv => GoMap.set modAccAddrs (moduleAddress kv.1) true) []

/-- The method `ModuleAccountAddrs`, visiting `maccPerms` in its listed order. -/
def ModuleAccountAddrs (moduleAddress : String → String) (transferAccountName : String) :
    GoMap Bool :=
  ModuleAccountAddrsRange moduleAddress (maccPerms transferAccountName)

/-- The loop of `GetMaccPerms` run over the entries `visited`. -/
def GetMaccPermsRange (visited : List (String × List String)) : GoMap (List String) :=
  visited.foldl (fun modAccPerms kv => GoMap.set modAccPerms kv.1 kv.2) []

/-- The function `GetMaccPerms`, visiting `maccPerms` in its listed order. -/
def GetMaccPerms (transferAccountName : String) : GoMap (List String) :=
  GetMaccPermsRange (maccPerms transferAccountName)

/-! ## `app/app.go`: the module manager as `NewInterchangeApp` configures it -/

/-- The framework type `module.Manager`, reduced to the names of its modules
and its four order tables. -/
structure Manager where
  Modules : List String
  OrderInitGenesis : List String
  OrderExportGenesis : List String
  OrderBeginBlockers : List String
  OrderEndBlockers : List String
deriving DecidableEq, Repr

/-- The framework constructor `module.NewManager`: every order table starts
as the list of module names in the order the modules are passed. -/
def NewManager (moduleNames : List String) : Manager :=
  { Modules := moduleNames
    OrderInitGenesis := moduleNames
    OrderExportGenesis := moduleNames
    OrderBeginBlockers := moduleNames
    OrderEndBlockers := moduleNames }

def Manager.SetOrderInitGenesis (m : Manager) (moduleNames : List String) : Manager :=
  { m with OrderInitGenesis := moduleNames }

def Manager.SetOrderBeginBlockers (m : Manager) (moduleNames : List String) : Manager :=
  { m with OrderBeginBlockers := moduleNames }

def Manager.SetOrderEndBlockers (m : Manager) (moduleNames : List String) : Manager :=
  { m with OrderEndBlockers := moduleNames }

/-- The names of the modules `NewInterchangeApp` passes to `module.NewManager`
(app.go lines 190-203), in that order. -/
def mountedModules : List String :=
  [ genutilModuleName, authModuleName, bankModuleName, crisisModuleName,
    supplyModuleName, govModuleName, slashingModuleName, stakingModuleName,
    upgradeModuleName, evidenceModuleName, ibcModuleName, ibctransferModuleName ]

/-- The value of `app.mm` after app.go lines 190-212. -/
def appModuleManager : Manager :=
  let mm := NewManager mountedModules
  let mm := mm.SetOrderBeginBlockers [upgradeModuleName, slashingModuleName]
  let mm := mm.SetOrderEndBlockers [crisisModuleName, govModuleName, stakingModuleName]
  mm.SetOrderInitGenesis
    [ stakingModuleName, authModuleName, bankModuleName,
      slashingModuleName, govModuleName, supplyModuleName,
      crisisModuleName, genutilModuleName, evidenceModuleName ]

/-! ## Staking and slashing records -/

/-- Raw address bytes (`sdk.AccAddress`, `sdk.ValAddress`, `sdk.ConsAddress`). -/
abbrev Address := List Nat

/-- The framework type `staking.RedelegationEntry`.  Here and below an `int64`,
a time stamp, an `sdk.Int` or an `sdk.Dec` is an integer, a public key is its
bytes: the export routine assigns 0 to the height fields and copies the rest. -/
structure RedelegationEntry where
  CreationHeight : Int
  CompletionTime : Int
  InitialBalance : Int
  SharesDst : Int
deriving DecidableEq, Repr

/-- The framework type `staking.Redelegation`. -/
structure Redelegation where
  DelegatorAddress : Address
  ValidatorSrcAddress : Address
  ValidatorDstAddress : Address
  Entries : List RedelegationEntry
deriving DecidableEq, Repr

/-- The framework type `staking.UnbondingDelegationEntry`. -/
structure UnbondingDelegationEntry where
  CreationHeight : Int
  CompletionTime : Int
  InitialBalance : Int
  Balance : Int
deriving DecidableEq, Repr

/-- The framework type `staking.UnbondingDelegation`. -/
structure UnbondingDelegation where
  DelegatorAddress : Address
  ValidatorAddress : Address
  Entries : List UnbondingDelegationEntry
deriving DecidableEq, Repr

/-- The framework type `staking.Validator`. -/
structure Validator where
  OperatorAddress : Address
  ConsPubKey : List Nat
  Jailed : Bool
  Status : Nat
  Tokens : Int
  DelegatorShares : Int
  Description : String
  UnbondingHeight : Int
  UnbondingCompletionTime : Int
  Commission : Int
  MinSelfDelegation : Int
deriving DecidableEq, Repr

/-- The framework type `slashing.ValidatorSigningInfo`. -/
structure ValidatorSigningInfo where
  Address : Address
  StartHeight : Int
  IndexOffset : Int
  JailedUntil : Int
  Tombstoned : Bool
  MissedBlocksCounter : Int
deriving DecidableEq, Repr

/-! ## The stores and the log of keeper calls -/

/-- The parts of the staking and slashing key-value stores the export routine
touches.  Each list is in the iteration order of its key prefix; the two
keyed lists map the key bytes that follow the prefix to the stored record. -/
structure Store where
  redelegations : List Redelegation
  unbondingDelegations : List UnbondingDelegation
  validators : List (Address × Validator)
  signingInfos : List (Address × ValidatorSigningInfo)
deriving DecidableEq, Repr

/-- One keeper call made on behalf of the export routine, with the record it
delivered or received. -/
inductive Event where
  | AssertInvariants
  | IterRedelegation (red : Redelegation)
  | SetRedelegation (red : Redelegation)
  | IterUnbondingDelegation (ubd : UnbondingDelegation)
  | SetUnbondingDelegation (ubd : UnbondingDelegation)
  | GetValidator (addr : Address) (found : Option Validator)
  | SetValidator (validator : Validator)
  | ApplyAndReturnValidatorSetUpdates (after : Option Store)
  | IterValidatorSigningInfo (addr : Address) (info : ValidatorSigningInfo)
  | SetValidatorSigningInfo (addr : Address) (info : ValidatorSigningInfo)
deriving DecidableEq, Repr

/-- What a context refers to by reference: the stores, and the keeper calls
made so far, oldest first. -/
structure Machine where
  store : Store
  log : List Event
deriving DecidableEq, Repr

/-- The value part of an `sdk.Context`. -/
structure Context where
  BlockHeight : Int
deriving DecidableEq, Repr

def Context.WithBlockHeight (_ctx : Context) (height : Int) : Context :=
  { BlockHeight := height }

/-- How a run ends early: `log.Fatal(err)` or `panic(msg)`. -/
inductive Abort where
  | fatal (err : String)
  | panic (msg : String)
deriving DecidableEq, Repr

/-- The machine a run leaves behind, and its value or the reason it ended early. -/
structure Outcome (α : Type) where
  machine : Machine
  result : Except Abort α

abbrev RawMessage := String
abbrev GenesisState := GoMap RawMessage

/-- The consensus engine type `tmtypes.GenesisValidator`. -/
structure GenesisValidator where
  Address : Address
  PubKey : List Nat
  Power : Int
  Name : String
deriving DecidableEq, Repr

/-- The framework functions the export routine calls, as parameters. -/
structure Framework where
  /-- The function `sdk.ValAddressFromBech32`. -/
  ValAddressFromBech32 : String → Except String Address
  /-- The method `sdk.ValAddress.String`. -/
  ValAddressString : Address → String
  /-- The method `crisis.Keeper.AssertInvariants`: `some msg` when it panics. -/
  AssertInvariants : Context → Store → Option String
  /-- The method `staking.Keeper.ApplyAndReturnValidatorSetUpdates`: the stores
  it leaves, or the message of its panic. -/
  ApplyAndReturnValidatorSetUpdates : Context → Store → Except String Store
  /-- The method `module.Manager.ExportGenesis`. -/
  ExportGenesis : Context → Store → GenesisState
  /-- The function `codec.MarshalJSONIndent`. -/
  MarshalJSONIndent : GenesisState → Except String RawMessage
  /-- The function `staking.WriteValidators`. -/
  WriteValidators : Context → Store → List GenesisValidator

/-! ## Keeper operations on the stores -/

/-- Append one keeper call to the log. -/
def Machine.emit (m : Machine) (e : Event) : Machine :=
  { m with log := m.log ++ [e] }

/-- Replace the first element that `same` accepts by `x`, or add `x` at the end. -/
def upsert {α : Type} (same : α → Bool) (x : α) : List α → List α
  | [] => [x]
  | y :: ys => if same y then x :: ys else y :: upsert same x ys

/-- Look a key up in a keyed list. -/
def lookupKey {β : Type} (k : Address) : List (Address × β) → Option β
  | [] => none
  | (k', v) :: rest => if k' = k then some v else lookupKey k rest

/-- Whether two redelegations are stored under the same key. -/
def sameRedelegationKey (a b : Redelegation) : Bool :=
  decide (a.DelegatorAddress = b.DelegatorAddress
    ∧ a.ValidatorSrcAddress = b.ValidatorSrcAddress
    ∧ a.ValidatorDstAddress = b.ValidatorDstAddress)

/-- Whether two unbonding delegations are stored under the same key. -/
def sameUnbondingKey (a b : UnbondingDelegation) : Bool :=
  decide (a.DelegatorAddress = b.DelegatorAddress ∧ a.ValidatorAddress = b.ValidatorAddress)

/-- The method `staking.Keeper.SetRedelegation`: the record is stored under
the key of its three addresses. -/
def SetRedelegation (m : Machine) (red : Redelegation) : Machine :=
  { store := { m.store with
      redelegations := upsert (sameRedelegationKey red) red m.store.redelegations }
    log := m.log ++ [Event.SetRedelegation red] }

/-- The method `staking.Keeper.SetUnbondingDelegation`. -/
def SetUnbondingDelegation (m : Machine) (ubd : UnbondingDelegation) : Machine :=
  { store := { m.store with
      unbondingDelegations := upsert (sameUnbondingKey ubd) ubd m.store.unbondingDelegations }
    log := m.log ++ [Event.SetUnbondingDelegation ubd] }

/-- The method `staking.Keeper.GetValidator`. -/
def GetValidator (m : Machine) (addr : Address) : Machine × Option Validator :=
  let found := lookupKey addr m.store.validators
  (m.emit (Event.GetValidator addr found), found)

/-- The method `staking.Keeper.SetValidator`: the record is stored under its
operator address. -/
def SetValidator (m : Machine) (validator : Validator) : Machine :=
  { store := { m.store with
      validators :=
        upsert (fun kv => decide (kv.1 = validator.OperatorAddress))
          (validator.OperatorAddress, validator) m.store.validators }
    log := m.log ++ [Event.SetValidator validator] }

/-- The method `slashing.Keeper.SetValidatorSigningInfo`. -/
def SetValidatorSigningInfo (m : Machine) (addr : Address) (info : ValidatorSigningInfo) :
    Machine :=
  { store := { m.store with
      signingInfos := upsert (fun kv => decide (kv.1 = addr)) (addr, info) m.store.signingInfos }
    log := m.log ++ [Event.SetValidatorSigningInfo addr info] }

/-- A keeper iteration: the records found when the iterator is opened are
handed to the callback one by one, with their index, until it returns `true`. -/
def iterate {α : Type} (deliver : α → Event) (cb : Int → α → Machine → Machine × Bool) :
    List α → Int → Machine → Machine
  | [], _, m => m
  | x :: xs, i, m =>
    let r := cb i x (m.emit (deliver x))
    if r.2 then r.1 else iterate deliver cb xs (i + 1) r.1

/-- The method `staking.Keeper.IterateRedelegations`. -/
def IterateRedelegations (m : Machine) (fn : Int → Redelegation → Machine → Machine × Bool) :
    Machine :=
  iterate Event.IterRedelegation fn m.store.redelegations 0 m

/-- The method `staking.Keeper.IterateUnbondingDelegations`. -/
def IterateUnbondingDelegations (m : Machine)
    (fn : Int → UnbondingDelegation → Machine → Machine × Bool) : Machine :=
  iterate Event.IterUnbondingDelegation fn m.store.unbondingDelegations 0 m

/-- The method `slashing.Keeper.IterateValidatorSigningInfos`. -/
def IterateValidatorSigningInfos (m : Machine)
    (handler : Address → ValidatorSigningInfo → Machine → Machine × Bool) : Machine :=
  iterate (fun kv => Event.IterValidatorSigningInfo kv.1 kv.2)
    (fun _ kv => handler kv.1 kv.2) m.store.signingInfos 0 m

/-- The key prefix `staking.ValidatorsKey`. -/
def ValidatorsKey : List Nat := [0x21]

/-- The keys `sdk.KVStoreReversePrefixIterator(store, staking.ValidatorsKey)`
yields: prefix and address bytes, last key first. -/
def KVStoreReversePrefixIterator (s : Store) : List (List Nat) :=
  (s.validators.map (fun kv => ValidatorsKey ++ kv.1)).reverse

/-- Go `int16` arithmetic wraps around. -/
def wrapInt16 (n : Int) : Int := (n + 32768) % 65536 - 32768

/-! ## `app/export.go` -/

/-- Apply `f` to the element at index `i` (the assignment `xs[i].F = v`). -/
def assignAt {α : Type} (f : α → α) : List α → Nat → List α
  | [], _ => []
  | x :: xs, 0 => f x :: xs
  | x :: xs, i + 1 => x :: assignAt f xs i

/-- The loop `for i := range entries { entries[i].F = v }`, `f` being the
assignment to one entry. -/
def rangeAssign {α : Type} (f : α → α) (entries : List α) : List α :=
  (List.range entries.length).foldl (fun es i => assignAt f es i) entries

/-- Callback of `IterateRedelegations` (export.go lines 57-63). -/
def redelegationCallback (_index : Int) (red : Redelegation) (m : Machine) : Machine × Bool :=
  let red : Redelegation :=
    { red with Entries := rangeAssign (fun e => { e with CreationHeight := 0 }) red.Entries }
  (SetRedelegation m red, false)

/-- Callback of `IterateUnbondingDelegations` (export.go lines 65-71). -/
def unbondingDelegationCallback (_index : Int) (ubd : UnbondingDelegation) (m : Machine) :
    Machine × Bool :=
  let ubd : UnbondingDelegation :=
    { ubd with Entries := rangeAssign (fun e => { e with CreationHeight := 0 }) ubd.Entries }
  (SetUnbondingDelegation m ubd, false)

/-- Callback of `IterateValidatorSigningInfos` (export.go lines 99-103). -/
def signingInfoCallback (addr : Address) (info : ValidatorSigningInfo) (m : Machine) :
    Machine × Bool :=
  let info : ValidatorSigningInfo := { info with StartHeight := 0 }
  (SetValidatorSigningInfo m addr info, false)

/-- The whitelist loop (export.go lines 42-48): `Except.error err` is `log.Fatal(err)`. -/
def whiteListLoop (fw : Framework) : List String → GoMap Bool → Except String (GoMap Bool)
  | [], whiteListMap => .ok whiteListMap
  | addr :: rest, whiteListMap =>
    match fw.ValAddressFromBech32 addr with
    | .error err => .error err
    | .ok _ => whiteListLoop fw rest (GoMap.set whiteListMap addr true)

/-- The validator loop (export.go lines 77-91) over the keys still to be
visited; its value is the final `counter`. -/
def validatorLoop (fw : Framework) (applyWhiteList : Bool) (whiteListMap : GoMap Bool) :
    List (List Nat) → Machine → Int → Outcome Int
  | [], m, counter => ⟨m, .ok counter⟩
  | key :: rest, m, counter =>
    let addr : Address := key.drop 1
    match GetValidator m addr with
    | (m, none) => ⟨m, .error (.panic "expected validator, not found")⟩
    | (m, some validator) =>
      let validator : Validator := { validator with UnbondingHeight := 0 }
      let validator : Validator :=
        if applyWhiteList && !(GoMap.index whiteListMap (fw.ValAddressString addr)) then
          { validator with Jailed := true }
        else validator
      let m := SetValidator m validator
      validatorLoop fw applyWhiteList whiteListMap rest m (wrapInt16 (counter + 1))

/-- The method `prepForZeroHeightGenesis` (export.go lines 33-105), run on the
machine `m` behind `ctx`. -/
def prepForZeroHeightGenesis (fw : Framework) (ctx : Context) (m : Machine)
    (jailWhiteList : List String) : Outcome Unit :=
  let applyWhiteList : Bool := decide (jailWhiteList.length > 0)
  match whiteListLoop fw jailWhiteList [] with
  | .error err => ⟨m, .error (.fatal err)⟩
  | .ok whiteListMap =>
    let m := m.emit Event.AssertInvariants
    match fw.AssertInvariants ctx m.store with
    | some msg => ⟨m, .error (.panic msg)⟩
    | none =>
      let height := ctx.BlockHeight
      let ctx := ctx.WithBlockHeight 0
      let ctx := ctx.WithBlockHeight height
      let m := IterateRedelegations m redelegationCallback
      let m := IterateUnbondingDelegations m unbondingDelegationCallback
      let iter := KVStoreReversePrefixIterator m.store
      let r := validatorLoop fw applyWhiteList whiteListMap iter m 0
      match r.result with
      | .error a => ⟨r.machine, .error a⟩
      | .ok _ =>
        match fw.ApplyAndReturnValidatorSetUpdates ctx r.machine.store with
        | .error msg =>
          ⟨r.machine.emit (Event.ApplyAndReturnValidatorSetUpdates none), .error (.panic msg)⟩
        | .ok store =>
          let m : Machine :=
            { store := store
              log := r.machine.log ++ [Event.ApplyAndReturnValidatorSetUpdates (some store)] }
          ⟨IterateValidatorSigningInfos m signingInfoCallback, .ok ()⟩

/-- The parts of `InterchangeApp` the export reads. -/
structure InterchangeApp where
  LastBlockHeight : Int
  store : Store
deriving DecidableEq, Repr

/-- The call `app.NewContext(true, abci.Header{Height: height})`. -/
def InterchangeApp.NewContext (_app : InterchangeApp) (height : Int) : Context :=
  { BlockHeight := height }

/-- The three results of `ExportAppStateAndValidators`; a `nil` message is
`none`, a `nil` slice the empty list, a `nil` error `none`. -/
structure ExportResult where
  appState : Option RawMessage
  validators : List GenesisValidator
  err : Option String
deriving DecidableEq, Repr

/-- The method `ExportAppStateAndValidators` (export.go lines 16-31). -/
def ExportAppStateAndValidators (fw : Framework) (app : InterchangeApp) (forZeroHeight : Bool)
    (jailWhiteList : List String) : Outcome ExportResult :=
  let ctx := app.NewContext app.LastBlockHeight
  let m : Machine := { store := app.store, log := [] }
  let p : Outcome Unit :=
    if forZeroHeight then prepForZeroHeightGenesis fw ctx m jailWhiteList else ⟨m, .ok ()⟩
  match p.result with
  | .error a => ⟨p.machine, .error a⟩
  | .ok _ =>
    let genState := fw.ExportGenesis ctx p.machine.store
    match fw.MarshalJSONIndent genState with
    | .error err => ⟨p.machine, .ok { appState := none, validators := [], err := some err }⟩
    | .ok appState =>
      let validators := fw.WriteValidators ctx p.machine.store
      ⟨p.machine, .ok { appState := some appState, validators := validators, err := none }⟩

/-! ## `app/app.go`: the lifecycle adapters -/

/-- The hooks of `module.Manager` and the JSON decoder of the codec, as
parameters: each takes the stores and returns its response with the stores it
leaves, or the message of its panic. -/
structure ModuleManager (BeginReq BeginResp EndReq EndResp InitResp : Type) where
  BeginBlock : Context → Store → BeginReq → Except String (BeginResp × Store)
  EndBlock : Context → Store → EndReq → Except String (EndResp × Store)
  InitGenesis : Context → Store → GenesisState → Except String (InitResp × Store)
  /-- The method `codec.Codec.UnmarshalJSON` at type `simapp.GenesisState`. -/
  UnmarshalJSON : RawMessage → Except String GenesisState

/-- The field of `abci.RequestInitChain` the application reads, beside the rest. -/
structure RequestInitChain (Rest : Type) where
  AppStateBytes : RawMessage
  rest : Rest

section adapters
variable {BeginReq BeginResp EndReq EndResp InitResp Rest : Type}

/-- The method `BeginBlocker` (app.go lines 248-250). -/
def BeginBlocker (mm : ModuleManager BeginReq BeginResp EndReq EndResp InitResp)
    (ctx : Context) (s : Store) (req : BeginReq) : Except String (BeginResp × Store) :=
  mm.BeginBlock ctx s req

/-- The method `EndBlocker` (app.go lines 252-254). -/
def EndBlocker (mm : ModuleManager BeginReq BeginResp EndReq EndResp InitResp)
    (ctx : Context) (s : Store) (req : EndReq) : Except String (EndResp × Store) :=
  mm.EndBlock ctx s req

/-- The method `InitChainer` (app.go lines 256-261); `MustUnmarshalJSON`
panics with the decoder's error. -/
def InitChainer (mm : ModuleManager BeginReq BeginResp EndReq EndResp InitResp)
    (ctx : Context) (s : Store) (req : RequestInitChain Rest) :
    Except String (InitResp × Store) :=
  match mm.UnmarshalJSON req.AppStateBytes with
  | .error err => .error err
  | .ok genesisState => mm.InitGenesis ctx s genesisState

end adapters

/-! ## Sample data -/

/-- A framework instance for examples: an address string is valid when it
starts with the validator prefix, an address prints as that prefix followed
by one letter per byte, invariants hold, the validator-set update leaves the
stores alone, and JSON coding concatenates the module states. -/
def sampleFramework : Framework :=
  { ValAddressFromBech32 := fun s =>
      if types.Bech32PrefixValAddr.data <+: s.data then
        .ok ((s.data.drop types.Bech32PrefixValAddr.length).map Char.toNat)
      else .error "decoding bech32 failed"
    ValAddressString := fun a => types.Bech32PrefixValAddr ++ String.mk (a.map Char.ofNat)
    AssertInvariants := fun _ _ => none
    ApplyAndReturnValidatorSetUpdates := fun _ s => .ok s
    ExportGenesis := fun ctx s =>
      [("height", toString ctx.BlockHeight), ("validators", toString s.validators.length)]
    MarshalJSONIndent := fun g => .ok (String.join (g.map (fun kv => kv.1 ++ "=" ++ kv.2 ++ ";")))
    WriteValidators := fun _ s =>
      s.validators.map (fun kv =>
        { Address := kv.1, PubKey := kv.2.ConsPubKey, Power := kv.2.Tokens, Name := "" }) }

def sampleValidator (addr : Address) (jailed : Bool) (unbondingHeight : Int) : Validator :=
  { OperatorAddress := addr, ConsPubKey := [7], Jailed := jailed, Status := 2, Tokens := 100,
    DelegatorShares := 100, Description := "v", UnbondingHeight := unbondingHeight,
    UnbondingCompletionTime := 5, Commission := 1, MinSelfDelegation := 1 }

def sampleStore : Store :=
  { redelegations :=
      [ { DelegatorAddress := [1], ValidatorSrcAddress := [97], ValidatorDstAddress := [98],
          Entries := [⟨10, 1, 2, 3⟩, ⟨11, 4, 5, 6⟩] } ]
    unbondingDelegations :=
      [ { DelegatorAddress := [1], ValidatorAddress := [97], Entries := [⟨12, 7, 8, 9⟩] } ]
    validators := [([97], sampleValidator [97] false 40), ([98], sampleValidator [98] true 41)]
    signingInfos :=
      [ ([50], { Address := [50], StartHeight := 33, IndexOffset := 1, JailedUntil := 0,
                 Tombstoned := false, MissedBlocksCounter := 2 }) ] }

def sampleContext : Context := { BlockHeight := 77 }

/-! ## Vocabulary of the statements about the log -/

/-- The log of a delivery loop in which every record `x` is delivered
(`deliver x`) and then written back (`write x`). -/
def deliveries {α : Type} (deliver write : α → Event) : List α → List Event
  | [] => []
  | x :: xs => deliver x :: write x :: deliveries deliver write xs

/-- The `Jailed` flag the routine is to store for a validator read under the
key `addr`, in the words of the whitelist rule. -/
def jailedAfter (fw : Framework) (jailWhiteList : List String) (addr : Address)
    (validator : Validator) : Bool :=
  validator.Jailed ||
    (decide (jailWhiteList ≠ []) && decide (fw.ValAddressString addr ∉ jailWhiteList))

/-- A redelegation with `CreationHeight = 0` in every entry, all else equal. -/
def zeroedRedelegation (red : Redelegation) : Redelegation :=
  { red with Entries := red.Entries.map (fun e => { e with CreationHeight := 0 }) }

/-- An unbonding delegation with `CreationHeight = 0` in every entry, all else equal. -/
def zeroedUnbondingDelegation (ubd : UnbondingDelegation) : UnbondingDelegation :=
  { ubd with Entries := ubd.Entries.map (fun e => { e with CreationHeight := 0 }) }

/-- A validator with `UnbondingHeight = 0` and the `Jailed` flag of the
whitelist rule, all else equal. -/
def preparedValidator (fw : Framework) (jailWhiteList : List String) (addr : Address)
    (validator : Validator) : Validator :=
  { validator with
    UnbondingHeight := 0
    Jailed := jailedAfter fw jailWhiteList addr validator }

/-- A signing info with `StartHeight = 0`, all else equal. -/
def zeroedSigningInfo (info : ValidatorSigningInfo) : ValidatorSigningInfo :=
  { info with StartHeight := 0 }

/-- The write the routine owes after the keeper delivered a record: the same
record with its height fields set to 0 and, for a validator, the `Jailed` flag
of the whitelist rule.  `none` for every other event. -/
def writeBack (fw : Framework) (jailWhiteList : List String) : Event → Option Event
  | .IterRedelegation red => some (.SetRedelegation (zeroedRedelegation red))
  | .IterUnbondingDelegation ubd =>
    some (.SetUnbondingDelegation (zeroedUnbondingDelegation ubd))
  | .GetValidator addr (some validator) =>
    some (.SetValidator (preparedValidator fw jailWhiteList addr validator))
  | .IterValidatorSigningInfo addr info =>
    some (.SetValidatorSigningInfo addr (zeroedSigningInfo info))
  | _ => none

/-- The delivery of a redelegation; the next seven definitions name the
other deliveries and the write owed for each. -/
def redelegationRead (red : Redelegation) : Event := .IterRedelegation red
def redelegationWrite (red : Redelegation) : Event := .SetRedelegation (zeroedRedelegation red)
def unbondingRead (ubd : UnbondingDelegation) : Event := .IterUnbondingDelegation ubd
def unbondingWrite (ubd : UnbondingDelegation) : Event :=
  .SetUnbondingDelegation (zeroedUnbondingDelegation ubd)
def validatorRead (kv : Address × Validator) : Event := .GetValidator kv.1 (some kv.2)
def validatorWrite (fw : Framework) (jailWhiteList : List String) (kv : Address × Validator) :
    Event :=
  .SetValidator (preparedValidator fw jailWhiteList kv.1 kv.2)
def signingInfoRead (kv : Address × ValidatorSigningInfo) : Event :=
  .IterValidatorSigningInfo kv.1 kv.2
def signingInfoWrite (kv : Address × ValidatorSigningInfo) : Event :=
  .SetValidatorSigningInfo kv.1 (zeroedSigningInfo kv.2)

/-- Whether the event is a write to the staking or slashing store. -/
def Event.isWrite : Event → Bool
  | .SetRedelegation _ => true
  | .SetUnbondingDelegation _ => true
  | .SetValidator _ => true
  | .SetValidatorSigningInfo _ _ => true
  | _ => false

/-- A log made of deliveries each directly followed by the write owed for it,
and of events that are neither deliveries nor writes. -/
inductive Blocks (fw : Framework) (jailWhiteList : List String) : List Event → Prop where
  | nil : Blocks fw jailWhiteList []
  | other (e : Event) (rest : List Event) :
      writeBack fw jailWhiteList e = none → e.isWrite = false →
      Blocks fw jailWhiteList rest → Blocks fw jailWhiteList (e :: rest)
  | pair (r w : Event) (rest : List Event) :
      writeBack fw jailWhiteList r = some w →
      Blocks fw jailWhiteList rest → Blocks fw jailWhiteList (r :: w :: rest)

/-- The validator store is keyed by operator address, each key once. -/
def WellKeyed (s : Store) : Prop :=
  (s.validators.map Prod.fst).Nodup ∧ ∀ kv ∈ s.validators, kv.1 = kv.2.OperatorAddress

/-- Every string of the whitelist decodes as a validator address. -/
def ValidWhiteList (fw : Framework) (jailWhiteList : List String) : Prop :=
  ∀ addr ∈ jailWhiteList, ∃ a, fw.ValAddressFromBech32 addr = .ok a

/-- The log of keeper calls a run of `prepForZeroHeightGenesis` leaves,
started on the stores `s` with an empty log. -/
def runLog (fw : Framework) (ctx : Context) (s : Store) (jailWhiteList : List String) :
    List Event :=
  (prepForZeroHeightGenesis fw ctx { store := s, log := [] } jailWhiteList).machine.log

/-- A module manager for examples: the hooks answer with the block height and
leave the stores alone, the decoder accepts the text `null` only. -/
def sampleManager : ModuleManager Nat Int Nat Int Int :=
  { BeginBlock := fun ctx s _ => .ok (ctx.BlockHeight, s)
    EndBlock := fun ctx s _ => .ok (ctx.BlockHeight, s)
    InitGenesis := fun ctx s g => if g = [] then .ok (ctx.BlockHeight, s) else .error "genesis"
    UnmarshalJSON := fun bz => if bz = "null" then .ok [] else .error "invalid JSON" }

/-! ## Go maps: lemmas -/

theorem GoMap.get_set {V : Type} (m : GoMap V) (k k' : String) (v : V) :
    GoMap.get (GoMap.set m k v) k' = if k = k' then some v else GoMap.get m k' := by
  induction m with
  | nil => simp [GoMap.set, GoMap.get]
  | cons hd tl ih =>
    obtain ⟨a, b⟩ := hd
    by_cases h : a = k
    · subst h
      by_cases h2 : a = k' <;> simp [GoMap.set, GoMap.get, h2]
    · by_cases h2 : a = k'
      · subst h2
        have h3 : ¬ k = a := fun e => h e.symm
        simp [GoMap.set, GoMap.get, h, h3]
      · simp [GoMap.set, GoMap.get, h, h2, ih]

theorem GoMap.keys_set {V : Type} (m : GoMap V) (k : String) (v : V) (x : String) :
    x ∈ (GoMap.set m k v).map Prod.fst ↔ x = k ∨ x ∈ m.map Prod.fst := by
  induction m with
  | nil => simp [GoMap.set]
  | cons hd tl ih =>
    obtain ⟨a, b⟩ := hd
    by_cases h : a = k
    · subst h; simp [GoMap.set]
    · simp only [GoMap.set, h, if_false, List.map_cons, List.mem_cons, ih]
      tauto

theorem GoMap.nodup_set {V : Type} (m : GoMap V) (k : String) (v : V)
    (h : (m.map Prod.fst).Nodup) : ((GoMap.set m k v).map Prod.fst).Nodup := by
  induction m with
  | nil => simp [GoMap.set]
  | cons hd tl ih =>
    obtain ⟨a, b⟩ := hd
    simp only [List.map_cons, List.nodup_cons] at h
    by_cases hk : a = k
    · subst hk; simpa [GoMap.set] using h
    · simp only [GoMap.set, hk, if_false, List.map_cons, List.nodup_cons]
      refine ⟨?_, ih h.2⟩
      rw [GoMap.keys_set]
      rintro (h1 | h1)
      · exact hk h1
      · exact h.1 h1

theorem GoMap.length_set {V : Type} (m : GoMap V) (k : String) (v : V) :
    (GoMap.set m k v).length ≤ m.length + 1 := by
  induction m with
  | nil => simp [GoMap.set]
  | cons hd tl ih =>
    obtain ⟨a, b⟩ := hd
    by_cases hk : a = k
    · simp [GoMap.set, hk]
    · simp [GoMap.set, hk]; omega

theorem GoMap.get_eq_some_iff {V : Type} (m : GoMap V) (h : (m.map Prod.fst).Nodup)
    (k : String) (v : V) : GoMap.get m k = some v ↔ (k, v) ∈ m := by
  induction m with
  | nil => simp [GoMap.get]
  | cons hd tl ih =>
    obtain ⟨a, b⟩ := hd
    simp only [List.map_cons, List.nodup_cons] at h
    by_cases hk : a = k
    · subst hk
      simp only [GoMap.get, if_true, List.mem_cons, Prod.mk.injEq, true_and, Option.some.injEq]
      constructor
      · intro e; exact Or.inl e.symm
      · rintro (e | e)
        · exact e.symm
        · exact absurd (List.mem_map_of_mem Prod.fst e) h.1
    · simp only [GoMap.get, hk, if_false, List.mem_cons, Prod.mk.injEq, ih h.2]
      constructor
      · intro e; exact Or.inr e
      · rintro (e | e)
        · exact absurd e.1.symm hk
        · exact e

theorem GoMap.get_perm {V : Type} (m m' : GoMap V) (hp : m.Perm m')
    (h : (m'.map Prod.fst).Nodup) (k : String) : GoMap.get m k = GoMap.get m' k := by
  have h' : (m.map Prod.fst).Nodup := ((hp.map Prod.fst).nodup_iff).mpr h
  apply Option.ext
  intro v
  simp only [Option.mem_def]
  rw [GoMap.get_eq_some_iff m h', GoMap.get_eq_some_iff m' h]
  exact hp.mem_iff

theorem GoMap.get_isSome_iff {V : Type} (m : GoMap V) (k : String) :
    (∃ v, GoMap.get m k = some v) ↔ k ∈ m.map Prod.fst := by
  induction m with
  | nil => simp [GoMap.get]
  | cons hd tl ih =>
    obtain ⟨a, b⟩ := hd
    by_cases hk : a = k
    · subst hk; simp [GoMap.get]
    · simp only [GoMap.get, hk, if_false, ih, List.map_cons, List.mem_cons]
      constructor
      · intro e; exact Or.inr e
      · rintro (e | e)
        · exact absurd e.symm hk
        · exact e

/-! ## Loops that fill a Go map -/

theorem foldSet_keys {α V : Type} (g : α → String) (h : α → V) (visited : List α)
    (m0 : GoMap V) (x : String) :
    x ∈ (visited.foldl (fun m kv => GoMap.set m (g kv) (h kv)) m0).map Prod.fst ↔
      x ∈ visited.map g ∨ x ∈ m0.map Prod.fst := by
  induction visited generalizing m0 with
  | nil => simp
  | cons hd tl ih =>
    simp only [List.foldl_cons, ih, GoMap.keys_set, List.map_cons, List.mem_cons]
    tauto

theorem foldSet_nodup {α V : Type} (g : α → String) (h : α → V) (visited : List α)
    (m0 : GoMap V) (h0 : (m0.map Prod.fst).Nodup) :
    ((visited.foldl (fun m kv => GoMap.set m (g kv) (h kv)) m0).map Prod.fst).Nodup := by
  induction visited generalizing m0 with
  | nil => simpa using h0
  | cons hd tl ih =>
    simp only [List.foldl_cons]
    exact ih _ (GoMap.nodup_set m0 _ _ h0)

theorem foldSet_length {α V : Type} (g : α → String) (h : α → V) (visited : List α)
    (m0 : GoMap V) :
    (visited.foldl (fun m kv => GoMap.set m (g kv) (h kv)) m0).length
      ≤ m0.length + visited.length := by
  induction visited generalizing m0 with
  | nil => simp
  | cons hd tl ih =>
    simp only [List.foldl_cons, List.length_cons]
    have h1 := ih (GoMap.set m0 (g hd) (h hd))
    have h2 := GoMap.length_set m0 (g hd) (h hd)
    omega

theorem foldSet_get_const {α V : Type} (g : α → String) (c : V) (visited : List α)
    (m0 : GoMap V) (a : String) :
    GoMap.get (visited.foldl (fun m kv => GoMap.set m (g kv) c) m0) a
      = if a ∈ visited.map g then some c else GoMap.get m0 a := by
  induction visited generalizing m0 with
  | nil => simp
  | cons hd tl ih =>
    simp only [List.foldl_cons, ih, GoMap.get_set, List.map_cons, List.mem_cons]
    by_cases h1 : a ∈ tl.map g
    · simp [h1]
    · by_cases h2 : g hd = a
      · simp [h2]
      · have h3 : ¬ a = g hd := fun e => h2 e.symm
        simp [h1, h2, h3]

theorem foldSet_get_copy {V : Type} (visited : List (String × V))
    (hn : (visited.map Prod.fst).Nodup) (m0 : GoMap V) (k : String) :
    GoMap.get (visited.foldl (fun m kv => GoMap.set m kv.1 kv.2) m0) k
      = if k ∈ visited.map Prod.fst then GoMap.get visited k else GoMap.get m0 k := by
  induction visited generalizing m0 with
  | nil => simp
  | cons hd tl ih =>
    obtain ⟨a, b⟩ := hd
    simp only [List.map_cons, List.nodup_cons] at hn
    simp only [List.foldl_cons, ih hn.2, GoMap.get_set, List.map_cons, List.mem_cons]
    by_cases h1 : k ∈ tl.map Prod.fst
    · have h2 : ¬ a = k := fun e => hn.1 (e ▸ h1)
      simp [h1, GoMap.get, h2]
    · by_cases h2 : a = k
      · simp [h1, h2, GoMap.get]
      · have h3 : ¬ k = a := fun e => h2 e.symm
        simp [h1, h2, h3]

theorem maccPerms_nodup (t : String) : ((maccPerms t).map Prod.fst).Nodup :=
  foldSet_nodup Prod.fst Prod.snd _ [] (by simp)

theorem maccPerms_keys (t : String) (name : String) :
    name ∈ (maccPerms t).map Prod.fst ↔
      name ∈ [authFeeCollectorName, stakingBondedPoolName, stakingNotBondedPoolName,
        govModuleName, t] := by
  unfold maccPerms GoMap.literal
  rw [foldSet_keys Prod.fst Prod.snd]
  simp

theorem maccPerms_length (t : String) : (maccPerms t).length ≤ 5 := by
  have h := foldSet_length Prod.fst Prod.snd
    [ (authFeeCollectorName, ([] : List String)),
      (stakingBondedPoolName, [supplyBurner, supplyStaking]),
      (stakingNotBondedPoolName, [supplyBurner, supplyStaking]),
      (govModuleName, [supplyBurner]),
      (t, [supplyMinter, supplyBurner]) ] []
  simpa [maccPerms, GoMap.literal] using h

/-! ## Claims about the tables of `app.go` and `address.go` -/

/-- C9: in whatever order `range` visits `maccPerms`, the map built by
`ModuleAccountAddrs` contains an address exactly when it is the module address
of a key of `maccPerms`, maps every key it contains to `true`, has at most
five entries (no key twice), and the map built by `GetMaccPerms` has exactly
the keys and permission lists of `maccPerms`, whose keys are the fee collector,
the two staking pools, gov and the transfer module account. -/
theorem ModuleAccountAddrs_image_of_maccPerms (moduleAddress : String → String)
    (transferAccountName : String) (visited : List (String × List String))
    (hvisit : visited.Perm (maccPerms transferAccountName)) :
    (∀ a : String,
        (∃ b, GoMap.get (ModuleAccountAddrsRange moduleAddress visited) a = some b) ↔
          ∃ name perms, GoMap.get (maccPerms transferAccountName) name = some perms
            ∧ a = moduleAddress name)
    ∧ (∀ (a : String) (b : Bool),
        GoMap.get (ModuleAccountAddrsRange moduleAddress visited) a = some b → b = true)
    ∧ (ModuleAccountAddrsRange moduleAddress visited).length ≤ 5
    ∧ ((ModuleAccountAddrsRange moduleAddress visited).map Prod.fst).Nodup
    ∧ (∀ name : String,
        GoMap.get (GetMaccPermsRange visited) name
          = GoMap.get (maccPerms transferAccountName) name)
    ∧ (∀ name : String,
        (∃ perms, GoMap.get (maccPerms transferAccountName) name = some perms) ↔
          name ∈ [authFeeCollectorName, stakingBondedPoolName, stakingNotBondedPoolName,
            govModuleName, transferAccountName]) := by
  have hkeys : ∀ x : String, x ∈ visited.map Prod.fst ↔
      x ∈ (maccPerms transferAccountName).map Prod.fst := fun x => (hvisit.map Prod.fst).mem_iff
  have hnd : (visited.map Prod.fst).Nodup :=
    ((hvisit.map Prod.fst).nodup_iff).mpr (maccPerms_nodup transferAccountName)
  refine ⟨?_, ?_, ?_, ?_, ?_, ?_⟩
  · intro a
    unfold ModuleAccountAddrsRange
    rw [foldSet_get_const (fun kv : String × List String => moduleAddress kv.1) true visited [] a]
    constructor
    · rintro ⟨b, hb⟩
      by_cases hmem : a ∈ visited.map (fun kv : String × List String => moduleAddress kv.1)
      · obtain ⟨kv, hkv, rfl⟩ := List.mem_map.mp hmem
        have h1 : kv.1 ∈ (maccPerms transferAccountName).map Prod.fst :=
          (hkeys kv.1).mp (List.mem_map_of_mem Prod.fst hkv)
        obtain ⟨perms, hp⟩ := (GoMap.get_isSome_iff _ _).mpr h1
        exact ⟨kv.1, perms, hp, rfl⟩
      · simp [hmem, GoMap.get] at hb
    · rintro ⟨name, perms, hp, rfl⟩
      have h1 : name ∈ visited.map Prod.fst :=
        (hkeys name).mpr ((GoMap.get_isSome_iff _ _).mp ⟨perms, hp⟩)
      obtain ⟨kv, hkv, rfl⟩ := List.mem_map.mp h1
      have hmem : moduleAddress kv.1 ∈
          visited.map (fun kv : String × List String => moduleAddress kv.1) :=
        List.mem_map.mpr ⟨kv, hkv, rfl⟩
      exact ⟨true, by simp [hmem]⟩
  · intro a b hb
    unfold ModuleAccountAddrsRange at hb
    rw [foldSet_get_const (fun kv : String × List String => moduleAddress kv.1) true visited [] a]
      at hb
    by_cases hmem : a ∈ visited.map (fun kv : String × List String => moduleAddress kv.1)
    · simp only [hmem, if_true, Option.some.injEq] at hb
      exact hb.symm
    · simp [hmem, GoMap.get] at hb
  · have h1 := foldSet_length (fun kv : String × List String => moduleAddress kv.1)
      (fun _ => true) visited []
    have h2 := maccPerms_length transferAccountName
    have h3 := hvisit.length_eq
    unfold ModuleAccountAddrsRange
    simp only [List.length_nil] at h1
    omega
  · exact foldSet_nodup (fun kv : String × List String => moduleAddress kv.1)
      (fun _ => true) visited [] (by simp)
  · intro name
    unfold GetMaccPermsRange
    rw [foldSet_get_copy visited hnd [] name]
    by_cases hmem : name ∈ visited.map Prod.fst
    · simp only [hmem, if_true]
      exact GoMap.get_perm visited _ hvisit (maccPerms_nodup transferAccountName) name
    · simp only [hmem, if_false]
      have h1 : ¬ ∃ v, GoMap.get (maccPerms transferAccountName) name = some v := by
        rw [GoMap.get_isSome_iff, ← hkeys]; exact hmem
      cases hg : GoMap.get (maccPerms transferAccountName) name with
      | none => simp [GoMap.get]
      | some v => exact absurd ⟨v, hg⟩ h1
  · intro name
    rw [GoMap.get_isSome_iff, maccPerms_keys]

/-- C9 at a concrete table: the transfer account is named `ibc/transfer`,
addresses are written `addr(name)`, and `range` visits the table in its listed
order, which is the run of `ModuleAccountAddrs` and `GetMaccPerms` themselves. -/
theorem ModuleAccountAddrs_image_witness :
    (maccPerms "ibc/transfer").Perm (maccPerms "ibc/transfer")
    ∧ (ModuleAccountAddrs (fun n => "addr(" ++ n ++ ")") "ibc/transfer").length ≤ 5
    ∧ (∀ name : String, GoMap.get (GetMaccPerms "ibc/transfer") name
          = GoMap.get (maccPerms "ibc/transfer") name) :=
  ⟨List.Perm.refl _,
   (ModuleAccountAddrs_image_of_maccPerms (fun n => "addr(" ++ n ++ ")") "ibc/transfer"
      (maccPerms "ibc/transfer") (List.Perm.refl _)).2.2.1,
   (ModuleAccountAddrs_image_of_maccPerms (fun n => "addr(" ++ n ++ ")") "ibc/transfer"
      (maccPerms "ibc/transfer") (List.Perm.refl _)).2.2.2.2.1⟩

/-- C5 as stated fails: the mounted module `upgrade` has no position in the
init-genesis order. -/
theorem init_genesis_order_misses_upgrade :
    upgradeModuleName ∈ appModuleManager.Modules
    ∧ upgradeModuleName ∉ appModuleManager.OrderInitGenesis := by
  decide

/-- C5 amended: of the twelve mounted modules exactly nine have a position in
the init-genesis order (genutil, auth, bank, crisis, supply, gov, slashing,
staking, evidence); upgrade, ibc and the transfer module have none. -/
theorem init_genesis_order_coverage :
    appModuleManager.Modules.length = 12
    ∧ appModuleManager.Modules.filter (fun n => decide (n ∈ appModuleManager.OrderInitGenesis))
        = [genutilModuleName, authModuleName, bankModuleName, crisisModuleName,
           supplyModuleName, govModuleName, slashingModuleName, stakingModuleName,
           evidenceModuleName]
    ∧ appModuleManager.Modules.filter (fun n => decide (n ∉ appModuleManager.OrderInitGenesis))
        = [upgradeModuleName, ibcModuleName, ibctransferModuleName] := by
  decide

/-- C6: the begin-block, end-block and init-genesis orders are the stated
lists, none names a module twice, each names only modules passed to
`module.NewManager`, upgrade comes before slashing in the begin-block order
and staking is last in the end-block order. -/
theorem order_tables_well_formed :
    appModuleManager.Modules = mountedModules
    ∧ appModuleManager.OrderBeginBlockers = [upgradeModuleName, slashingModuleName]
    ∧ appModuleManager.OrderEndBlockers
        = [crisisModuleName, govModuleName, stakingModuleName]
    ∧ appModuleManager.OrderInitGenesis
        = [stakingModuleName, authModuleName, bankModuleName, slashingModuleName,
           govModuleName, supplyModuleName, crisisModuleName, genutilModuleName,
           evidenceModuleName]
    ∧ appModuleManager.OrderBeginBlockers.Nodup
    ∧ appModuleManager.OrderEndBlockers.Nodup
    ∧ appModuleManager.OrderInitGenesis.Nodup
    ∧ (∀ n ∈ appModuleManager.OrderBeginBlockers, n ∈ appModuleManager.Modules)
    ∧ (∀ n ∈ appModuleManager.OrderEndBlockers, n ∈ appModuleManager.Modules)
    ∧ (∀ n ∈ appModuleManager.OrderInitGenesis, n ∈ appModuleManager.Modules)
    ∧ appModuleManager.OrderBeginBlockers.indexOf upgradeModuleName
        < appModuleManager.OrderBeginBlockers.indexOf slashingModuleName
    ∧ appModuleManager.OrderEndBlockers.getLast? = some stakingModuleName := by
  decide

/-! ## The lifecycle adapters -/

/-- C7: `BeginBlocker` and `EndBlocker` return what the manager's `BeginBlock`
and `EndBlock` return; `InitChainer` returns what `InitGenesis` returns on the
genesis state decoded from `req.AppStateBytes`, and fails exactly when the
decoding fails or the manager does. -/
theorem lifecycle_adapters_forward {BeginReq BeginResp EndReq EndResp InitResp Rest : Type}
    (mm : ModuleManager BeginReq BeginResp EndReq EndResp InitResp) (ctx : Context)
    (s : Store) (breq : BeginReq) (ereq : EndReq) (ireq : RequestInitChain Rest) :
    BeginBlocker mm ctx s breq = mm.BeginBlock ctx s breq
    ∧ EndBlocker mm ctx s ereq = mm.EndBlock ctx s ereq
    ∧ (∀ g, mm.UnmarshalJSON ireq.AppStateBytes = .ok g →
        InitChainer mm ctx s ireq = mm.InitGenesis ctx s g)
    ∧ ((∃ msg, InitChainer mm ctx s ireq = .error msg) ↔
        ((∃ err, mm.UnmarshalJSON ireq.AppStateBytes = .error err) ∨
          ∃ g msg, mm.UnmarshalJSON ireq.AppStateBytes = .ok g
            ∧ mm.InitGenesis ctx s g = .error msg)) := by
  refine ⟨rfl, rfl, ?_, ?_⟩
  · intro g hg
    simp [InitChainer, hg]
  · cases hd : mm.UnmarshalJSON ireq.AppStateBytes with
    | error err => simp [InitChainer, hd]
    | ok g => simp [InitChainer, hd]

/-- C7 at a concrete manager: a well-formed request is forwarded, a malformed
one fails in the decoder. -/
theorem lifecycle_adapters_forward_witness :
    InitChainer sampleManager sampleContext sampleStore
        ({ AppStateBytes := "null", rest := () } : RequestInitChain Unit)
      = sampleManager.InitGenesis sampleContext sampleStore []
    ∧ InitChainer sampleManager sampleContext sampleStore
        ({ AppStateBytes := "nul", rest := () } : RequestInitChain Unit)
      = .error "invalid JSON" :=
  ⟨(lifecycle_adapters_forward sampleManager sampleContext sampleStore 0 0
      ({ AppStateBytes := "null", rest := () } : RequestInitChain Unit)).2.2.1 [] rfl,
   rfl⟩

/-! ## The whitelist loop -/

theorem whiteListLoop_ok_of_valid (fw : Framework) (wl : List String)
    (h : ValidWhiteList fw wl) (m0 : GoMap Bool) :
    ∃ map, whiteListLoop fw wl m0 = .ok map := by
  induction wl generalizing m0 with
  | nil => exact ⟨m0, rfl⟩
  | cons addr rest ih =>
    obtain ⟨a, ha⟩ := h addr (List.mem_cons_self _ _)
    have hrest : ValidWhiteList fw rest := fun x hx => h x (List.mem_cons_of_mem _ hx)
    obtain ⟨map, hmap⟩ := ih hrest (GoMap.set m0 addr true)
    exact ⟨map, by simp [whiteListLoop, ha, hmap]⟩

theorem whiteListLoop_error_of_invalid (fw : Framework) (wl : List String)
    (h : ∃ addr ∈ wl, ∀ a, fw.ValAddressFromBech32 addr ≠ .ok a) (m0 : GoMap Bool) :
    ∃ err, whiteListLoop fw wl m0 = .error err := by
  induction wl generalizing m0 with
  | nil => obtain ⟨addr, hmem, _⟩ := h; simp at hmem
  | cons addr rest ih =>
    cases hd : fw.ValAddressFromBech32 addr with
    | error err => exact ⟨err, by simp [whiteListLoop, hd]⟩
    | ok a =>
      obtain ⟨bad, hmem, hbad⟩ := h
      rcases List.mem_cons.mp hmem with e | e
      · subst e; exact absurd hd (hbad a)
      · obtain ⟨err, herr⟩ := ih ⟨bad, e, hbad⟩ (GoMap.set m0 addr true)
        exact ⟨err, by simp [whiteListLoop, hd, herr]⟩

theorem whiteListLoop_index (fw : Framework) (wl : List String) (m0 map : GoMap Bool)
    (h : whiteListLoop fw wl m0 = .ok map) (s : String) :
    GoMap.index map s = (decide (s ∈ wl) || GoMap.index m0 s) := by
  induction wl generalizing m0 with
  | nil =>
    simp only [whiteListLoop, Except.ok.injEq] at h
    subst h; simp
  | cons addr rest ih =>
    cases hd : fw.ValAddressFromBech32 addr with
    | error err => simp [whiteListLoop, hd] at h
    | ok a =>
      simp only [whiteListLoop, hd] at h
      rw [ih _ h]
      simp only [GoMap.index, GoMap.get_set, List.mem_cons]
      by_cases h1 : addr = s
      · subst h1; simp
      · have h2 : ¬ s = addr := fun e => h1 e.symm
        simp [h1, h2]

theorem validatorLoop_not_fatal (fw : Framework) (applyWhiteList : Bool)
    (whiteListMap : GoMap Bool) (keys : List (List Nat)) (m : Machine) (counter : Int)
    (err : String) :
    (validatorLoop fw applyWhiteList whiteListMap keys m counter).result
      ≠ .error (Abort.fatal err) := by
  induction keys generalizing m counter with
  | nil => simp [validatorLoop]
  | cons key rest ih =>
    simp only [validatorLoop, GetValidator]
    cases hl : lookupKey (List.drop 1 key) m.store.validators with
    | none => simp
    | some v => exact ih _ _

/-- C8: a whitelist with a string that is not a valid validator address ends
the routine with `log.Fatal` and leaves the machine as it was: no keeper call
(neither the invariant check nor any write) is logged and every store is
unchanged.  A whitelist of valid strings passes the validation loop, and the
routine does not end with `log.Fatal`. -/
theorem prep_aborts_before_any_write (fw : Framework) (ctx : Context) (m : Machine)
    (jailWhiteList : List String) :
    ((∃ addr ∈ jailWhiteList, ∀ a, fw.ValAddressFromBech32 addr ≠ .ok a) →
      (prepForZeroHeightGenesis fw ctx m jailWhiteList).machine = m
      ∧ ∃ err, (prepForZeroHeightGenesis fw ctx m jailWhiteList).result
          = .error (Abort.fatal err))
    ∧ (ValidWhiteList fw jailWhiteList →
      (∃ map, whiteListLoop fw jailWhiteList [] = .ok map)
      ∧ ∀ err, (prepForZeroHeightGenesis fw ctx m jailWhiteList).result
          ≠ .error (Abort.fatal err)) := by
  constructor
  · intro h
    obtain ⟨err, herr⟩ := whiteListLoop_error_of_invalid fw jailWhiteList h []
    refine ⟨?_, err, ?_⟩ <;> simp [prepForZeroHeightGenesis, herr]
  · intro h
    obtain ⟨map, hmap⟩ := whiteListLoop_ok_of_valid fw jailWhiteList h []
    refine ⟨⟨map, hmap⟩, ?_⟩
    intro err
    simp only [prepForZeroHeightGenesis, hmap]
    split
    · simp
    · split
      · rename_i a heq
        intro hcontra
        simp only [Except.error.injEq] at hcontra
        subst hcontra
        exact validatorLoop_not_fatal _ _ _ _ _ _ _ heq
      · split <;> simp

/-- C8 at a concrete whitelist whose second string is not an address: the
run ends with `log.Fatal`, the log stays empty and the stores are untouched. -/
theorem prep_aborts_before_any_write_witness :
    (prepForZeroHeightGenesis sampleFramework sampleContext
        { store := sampleStore, log := [] } ["assetvalopera", "xx"]).machine
      = { store := sampleStore, log := [] }
    ∧ ∃ err, (prepForZeroHeightGenesis sampleFramework sampleContext
        { store := sampleStore, log := [] } ["assetvalopera", "xx"]).result
          = .error (Abort.fatal err) :=
  (prep_aborts_before_any_write sampleFramework sampleContext
      { store := sampleStore, log := [] } ["assetvalopera", "xx"]).1
    ⟨"xx", by decide, fun a h => by
      have e : sampleFramework.ValAddressFromBech32 "xx" = .error "decoding bech32 failed" := rfl
      rw [e] at h
      cases h⟩

/-! ## The export -/

/-- C4: with `forZeroHeight = false` no keeper call is made and the stores
handed to `ExportGenesis` and `WriteValidators` are the application's own,
whatever the whitelist; with `forZeroHeight = true` they are the stores
`prepForZeroHeightGenesis` leaves, and its abort is the abort of the export.
In both cases the context has height `LastBlockHeight`, and the results are
`(nil, nil, err)` when marshalling fails and `(appState, validators, nil)`
otherwise. -/
theorem export_prepares_iff_forZeroHeight (fw : Framework) (app : InterchangeApp)
    (jailWhiteList : List String) :
    (ExportAppStateAndValidators fw app false jailWhiteList).machine
        = { store := app.store, log := [] }
    ∧ (∀ err,
        fw.MarshalJSONIndent (fw.ExportGenesis { BlockHeight := app.LastBlockHeight } app.store)
          = .error err →
        (ExportAppStateAndValidators fw app false jailWhiteList).result
          = .ok { appState := none, validators := [], err := some err })
    ∧ (∀ bz,
        fw.MarshalJSONIndent (fw.ExportGenesis { BlockHeight := app.LastBlockHeight } app.store)
          = .ok bz →
        (ExportAppStateAndValidators fw app false jailWhiteList).result
          = .ok { appState := some bz
                  validators := fw.WriteValidators { BlockHeight := app.LastBlockHeight } app.store
                  err := none })
    ∧ (ExportAppStateAndValidators fw app true jailWhiteList).machine
        = (prepForZeroHeightGenesis fw { BlockHeight := app.LastBlockHeight }
            { store := app.store, log := [] } jailWhiteList).machine
    ∧ (∀ a,
        (prepForZeroHeightGenesis fw { BlockHeight := app.LastBlockHeight }
            { store := app.store, log := [] } jailWhiteList).result = .error a →
        (ExportAppStateAndValidators fw app true jailWhiteList).result = .error a)
    ∧ (∀ s,
        (prepForZeroHeightGenesis fw { BlockHeight := app.LastBlockHeight }
            { store := app.store, log := [] } jailWhiteList).result = .ok () →
        s = (prepForZeroHeightGenesis fw { BlockHeight := app.LastBlockHeight }
            { store := app.store, log := [] } jailWhiteList).machine.store →
        (∀ err,
          fw.MarshalJSONIndent (fw.ExportGenesis { BlockHeight := app.LastBlockHeight } s)
            = .error err →
          (ExportAppStateAndValidators fw app true jailWhiteList).result
            = .ok { appState := none, validators := [], err := some err })
        ∧ (∀ bz,
          fw.MarshalJSONIndent (fw.ExportGenesis { BlockHeight := app.LastBlockHeight } s)
            = .ok bz →
          (ExportAppStateAndValidators fw app true jailWhiteList).result
            = .ok { appState := some bz
                    validators := fw.WriteValidators { BlockHeight := app.LastBlockHeight } s
                    err := none })) := by
  refine ⟨?_, ?_, ?_, ?_, ?_, ?_⟩
  · cases h : fw.MarshalJSONIndent
        (fw.ExportGenesis { BlockHeight := app.LastBlockHeight } app.store) <;>
      simp [ExportAppStateAndValidators, InterchangeApp.NewContext, h]
  · intro err h
    simp [ExportAppStateAndValidators, InterchangeApp.NewContext, h]
  · intro bz h
    simp [ExportAppStateAndValidators, InterchangeApp.NewContext, h]
  · simp only [ExportAppStateAndValidators, InterchangeApp.NewContext, if_true]
    split
    · rfl
    · split <;> rfl
  · intro a h
    simp [ExportAppStateAndValidators, InterchangeApp.NewContext, h]
  · intro s h hs
    subst hs
    constructor
    · intro err hm
      simp [ExportAppStateAndValidators, InterchangeApp.NewContext, h, hm]
    · intro bz hm
      simp [ExportAppStateAndValidators, InterchangeApp.NewContext, h, hm]

/-- C4 at a concrete application: without `forZeroHeight` the export of the
sample stores reports height 77 and both validators although the whitelist
holds an invalid string, and no keeper call is logged. -/
theorem export_prepares_iff_forZeroHeight_witness :
    (ExportAppStateAndValidators sampleFramework
        { LastBlockHeight := 77, store := sampleStore } false ["xx"]).machine
      = { store := sampleStore, log := [] }
    ∧ (ExportAppStateAndValidators sampleFramework
        { LastBlockHeight := 77, store := sampleStore } false ["xx"]).result
      = .ok { appState := some "height=77;validators=2;"
              validators := sampleFramework.WriteValidators { BlockHeight := 77 } sampleStore
              err := none } :=
  ⟨(export_prepares_iff_forZeroHeight sampleFramework
      { LastBlockHeight := 77, store := sampleStore } ["xx"]).1,
   (export_prepares_iff_forZeroHeight sampleFramework
      { LastBlockHeight := 77, store := sampleStore } ["xx"]).2.2.1 "height=77;validators=2;"
      rfl⟩

/-! ## The entry loop and the keeper iterations -/

theorem assignAt_take_drop {α : Type} (f : α → α) (l : List α) (n : Nat) :
    assignAt f ((l.take n).map f ++ l.drop n) n = (l.take (n + 1)).map f ++ l.drop (n + 1) := by
  induction l generalizing n with
  | nil => simp [assignAt]
  | cons x xs ih =>
    cases n with
    | zero => simp [assignAt]
    | succ k =>
      simp only [List.take_succ_cons, List.drop_succ_cons, List.map_cons, List.cons_append,
        assignAt]
      exact congrArg (fun t => f x :: t) (ih k)

theorem rangeAssign_eq_map {α : Type} (f : α → α) (l : List α) :
    rangeAssign f l = l.map f := by
  have h : ∀ n, (List.range n).foldl (fun es i => assignAt f es i) l
      = (l.take n).map f ++ l.drop n := by
    intro n
    induction n with
    | zero => simp
    | succ k ih =>
      rw [List.range_succ, List.foldl_append]
      simp only [List.foldl_cons, List.foldl_nil, ih]
      exact assignAt_take_drop f l k
  unfold rangeAssign
  rw [h]
  simp

theorem iterate_log {α : Type} (deliver write : α → Event)
    (cb : Int → α → Machine → Machine × Bool)
    (hstop : ∀ i x m, (cb i x m).2 = false)
    (hlog : ∀ i x m, (cb i x m).1.log = m.log ++ [write x])
    (xs : List α) (i : Int) (m : Machine) :
    (iterate deliver cb xs i m).log = m.log ++ deliveries deliver write xs := by
  induction xs generalizing i m with
  | nil => simp [iterate, deliveries]
  | cons x rest ih =>
    simp only [iterate, hstop, Bool.false_eq_true, if_false]
    rw [ih, hlog]
    simp [Machine.emit, deliveries]

theorem iterate_store {α β : Type} (π : Store → β) (deliver : α → Event)
    (cb : Int → α → Machine → Machine × Bool)
    (hcb : ∀ i x m, π (cb i x m).1.store = π m.store)
    (xs : List α) (i : Int) (m : Machine) :
    π (iterate deliver cb xs i m).store = π m.store := by
  induction xs generalizing i m with
  | nil => simp [iterate]
  | cons x rest ih =>
    simp only [iterate]
    split
    · rw [hcb]; simp [Machine.emit]
    · rw [ih, hcb]; simp [Machine.emit]

theorem redelegationCallback_eq (i : Int) (red : Redelegation) (m : Machine) :
    redelegationCallback i red m = (SetRedelegation m (zeroedRedelegation red), false) := by
  simp [redelegationCallback, zeroedRedelegation, rangeAssign_eq_map]

theorem unbondingDelegationCallback_eq (i : Int) (ubd : UnbondingDelegation) (m : Machine) :
    unbondingDelegationCallback i ubd m
      = (SetUnbondingDelegation m (zeroedUnbondingDelegation ubd), false) := by
  simp [unbondingDelegationCallback, zeroedUnbondingDelegation, rangeAssign_eq_map]

theorem IterateRedelegations_log (m : Machine) :
    (IterateRedelegations m redelegationCallback).log
      = m.log ++ deliveries redelegationRead redelegationWrite m.store.redelegations := by
  unfold IterateRedelegations
  exact iterate_log redelegationRead redelegationWrite redelegationCallback
    (fun i x m => by simp [redelegationCallback_eq])
    (fun i x m => by simp [redelegationCallback_eq, SetRedelegation, redelegationWrite])
    m.store.redelegations 0 m

theorem IterateRedelegations_frame (m : Machine) :
    (IterateRedelegations m redelegationCallback).store.unbondingDelegations
        = m.store.unbondingDelegations
    ∧ (IterateRedelegations m redelegationCallback).store.validators = m.store.validators := by
  unfold IterateRedelegations
  constructor
  · exact iterate_store (fun s => s.unbondingDelegations) _ _
      (fun i x m => by simp [redelegationCallback_eq, SetRedelegation]) _ _ _
  · exact iterate_store (fun s => s.validators) _ _
      (fun i x m => by simp [redelegationCallback_eq, SetRedelegation]) _ _ _

theorem IterateUnbondingDelegations_log (m : Machine) :
    (IterateUnbondingDelegations m unbondingDelegationCallback).log
      = m.log ++ deliveries unbondingRead unbondingWrite m.store.unbondingDelegations := by
  unfold IterateUnbondingDelegations
  exact iterate_log unbondingRead unbondingWrite unbondingDelegationCallback
    (fun i x m => by simp [unbondingDelegationCallback_eq])
    (fun i x m => by
      simp [unbondingDelegationCallback_eq, SetUnbondingDelegation, unbondingWrite])
    m.store.unbondingDelegations 0 m

theorem IterateUnbondingDelegations_frame (m : Machine) :
    (IterateUnbondingDelegations m unbondingDelegationCallback).store.validators
      = m.store.validators := by
  unfold IterateUnbondingDelegations
  exact iterate_store (fun s => s.validators) _ _
    (fun i x m => by simp [unbondingDelegationCallback_eq, SetUnbondingDelegation]) _ _ _

theorem IterateValidatorSigningInfos_log (m : Machine) :
    (IterateValidatorSigningInfos m signingInfoCallback).log
      = m.log ++ deliveries signingInfoRead signingInfoWrite m.store.signingInfos := by
  unfold IterateValidatorSigningInfos
  exact iterate_log signingInfoRead signingInfoWrite
    (fun _ kv => signingInfoCallback kv.1 kv.2)
    (fun i x m => by simp [signingInfoCallback])
    (fun i x m => by
      simp [signingInfoCallback, SetValidatorSigningInfo, signingInfoWrite, zeroedSigningInfo])
    m.store.signingInfos 0 m

/-! ## The validator loop -/

theorem lookupKey_upsert {β : Type} (a : Address) (w : β) (l : List (Address × β))
    (k : Address) :
    lookupKey k (upsert (fun kv => decide (kv.1 = a)) (a, w) l)
      = if a = k then some w else lookupKey k l := by
  induction l with
  | nil => simp [upsert, lookupKey]
  | cons hd tl ih =>
    obtain ⟨x, y⟩ := hd
    by_cases h1 : x = a
    · subst h1
      by_cases h2 : x = k <;> simp [upsert, lookupKey, h2]
    · by_cases h2 : x = k
      · subst h2
        have h3 : ¬ a = x := fun e => h1 e.symm
        simp [upsert, lookupKey, h1, h3]
      · simp [upsert, lookupKey, h1, h2, ih]

theorem lookupKey_of_mem {β : Type} (l : List (Address × β)) (hn : (l.map Prod.fst).Nodup)
    (kv : Address × β) (hmem : kv ∈ l) : lookupKey kv.1 l = some kv.2 := by
  induction l with
  | nil => simp at hmem
  | cons hd tl ih =>
    obtain ⟨x, y⟩ := hd
    simp only [List.map_cons, List.nodup_cons] at hn
    rcases List.mem_cons.mp hmem with e | e
    · subst e; simp [lookupKey]
    · have h1 : ¬ x = kv.1 := fun h => hn.1 (h ▸ List.mem_map_of_mem Prod.fst e)
      simp [lookupKey, h1, ih hn.2 e]

theorem lookupKey_mem {β : Type} (l : List (Address × β)) (k : Address) (v : β)
    (h : lookupKey k l = some v) : (k, v) ∈ l := by
  induction l with
  | nil => simp [lookupKey] at h
  | cons hd tl ih =>
    obtain ⟨x, y⟩ := hd
    by_cases h1 : x = k
    · simp only [lookupKey, h1, if_true, Option.some.injEq] at h
      subst h; subst h1; exact List.mem_cons_self _ _
    · simp only [lookupKey, h1, if_false] at h
      exact List.mem_cons_of_mem _ (ih h)

theorem lookupKey_isSome_of_mem {β : Type} (l : List (Address × β)) (k : Address)
    (h : k ∈ l.map Prod.fst) : ∃ v, lookupKey k l = some v := by
  induction l with
  | nil => simp at h
  | cons hd tl ih =>
    obtain ⟨x, y⟩ := hd
    by_cases h1 : x = k
    · exact ⟨y, by simp [lookupKey, h1]⟩
    · simp only [List.map_cons, List.mem_cons] at h
      rcases h with e | e
      · exact absurd e.symm h1
      · obtain ⟨v, hv⟩ := ih e
        exact ⟨v, by simp [lookupKey, h1, hv]⟩

theorem eq_of_keys_lookup {β : Type} (F : Address → Option β) (l1 l2 : List (Address × β))
    (hk : l1.map Prod.fst = l2.map Prod.fst)
    (h1 : ∀ kv ∈ l1, F kv.1 = some kv.2) (h2 : ∀ kv ∈ l2, F kv.1 = some kv.2) : l1 = l2 := by
  induction l1 generalizing l2 with
  | nil =>
    cases l2 with
    | nil => rfl
    | cons b bs => simp at hk
  | cons a as ih =>
    cases l2 with
    | nil => simp at hk
    | cons b bs =>
      simp only [List.map_cons, List.cons.injEq] at hk
      have ha := h1 a (List.mem_cons_self _ _)
      have hb := h2 b (List.mem_cons_self _ _)
      have e : a = b := by
        obtain ⟨a1, a2⟩ := a
        obtain ⟨b1, b2⟩ := b
        simp only at hk ha hb
        obtain ⟨hk1, _⟩ := hk
        subst hk1
        rw [ha] at hb
        simp only [Option.some.injEq] at hb
        rw [hb]
      rw [e, ih bs hk.2 (fun kv hkv => h1 kv (List.mem_cons_of_mem _ hkv))
        (fun kv hkv => h2 kv (List.mem_cons_of_mem _ hkv))]

theorem jail_step (fw : Framework) (wl : List String) (applyWhiteList : Bool)
    (whiteListMap : GoMap Bool)
    (hmap : ∀ s, (applyWhiteList && !(GoMap.index whiteListMap s))
      = (decide (wl ≠ []) && decide (s ∉ wl)))
    (addr : Address) (v : Validator) :
    (if (applyWhiteList && !(GoMap.index whiteListMap (fw.ValAddressString addr))) = true then
        { ({ v with UnbondingHeight := 0 } : Validator) with Jailed := true }
      else ({ v with UnbondingHeight := 0 } : Validator))
      = preparedValidator fw wl addr v := by
  rw [hmap]
  unfold preparedValidator jailedAfter
  split
  · rename_i h; rw [h]; simp
  · rename_i h
    have h' : (decide (wl ≠ []) && decide (fw.ValAddressString addr ∉ wl)) = false := by
      simpa using h
    rw [h']; simp

theorem validatorLoop_log (fw : Framework) (wl : List String) (applyWhiteList : Bool)
    (whiteListMap : GoMap Bool)
    (hmap : ∀ s, (applyWhiteList && !(GoMap.index whiteListMap s))
      = (decide (wl ≠ []) && decide (s ∉ wl)))
    (keys : List (List Nat)) (m : Machine) (counter : Int)
    (hpresent : ∀ key ∈ keys, ∃ v, lookupKey (key.drop 1) m.store.validators = some v) :
    ∃ reads : List (Address × Validator),
      reads.map Prod.fst = keys.map (List.drop 1)
      ∧ (validatorLoop fw applyWhiteList whiteListMap keys m counter).machine.log
          = m.log ++ deliveries validatorRead (validatorWrite fw wl) reads
      ∧ (∃ c, (validatorLoop fw applyWhiteList whiteListMap keys m counter).result = .ok c)
      ∧ ((keys.map (List.drop 1)).Nodup →
          (∀ key ∈ keys, ∀ v, lookupKey (key.drop 1) m.store.validators = some v →
            v.OperatorAddress = key.drop 1) →
          ∀ kv ∈ reads, lookupKey kv.1 m.store.validators = some kv.2) := by
  induction keys generalizing m counter with
  | nil => exact ⟨[], by simp [validatorLoop, deliveries]⟩
  | cons key rest ih =>
    obtain ⟨v, hv⟩ := hpresent key (List.mem_cons_self _ _)
    have hstep : validatorLoop fw applyWhiteList whiteListMap (key :: rest) m counter
        = validatorLoop fw applyWhiteList whiteListMap rest
            (SetValidator (m.emit (Event.GetValidator (key.drop 1) (some v)))
              (preparedValidator fw wl (key.drop 1) v)) (wrapInt16 (counter + 1)) := by
      simp only [validatorLoop, GetValidator, hv]
      rw [jail_step fw wl applyWhiteList whiteListMap hmap]
    have hop : (preparedValidator fw wl (key.drop 1) v).OperatorAddress = v.OperatorAddress := rfl
    have hlook : ∀ k, lookupKey k
        (SetValidator (m.emit (Event.GetValidator (key.drop 1) (some v)))
          (preparedValidator fw wl (key.drop 1) v)).store.validators
        = if v.OperatorAddress = k then some (preparedValidator fw wl (key.drop 1) v)
          else lookupKey k m.store.validators := by
      intro k
      simp only [SetValidator, Machine.emit, hop]
      exact lookupKey_upsert _ _ _ _
    have hpresent' : ∀ key' ∈ rest, ∃ v', lookupKey (key'.drop 1)
        (SetValidator (m.emit (Event.GetValidator (key.drop 1) (some v)))
          (preparedValidator fw wl (key.drop 1) v)).store.validators = some v' := by
      intro key' hmem
      rw [hlook]
      split
      · exact ⟨_, rfl⟩
      · exact hpresent key' (List.mem_cons_of_mem _ hmem)
    obtain ⟨reads, hkeys, hlog, hok, hwk⟩ := ih _ (wrapInt16 (counter + 1)) hpresent'
    refine ⟨(key.drop 1, v) :: reads, ?_, ?_, ?_, ?_⟩
    · simp [hkeys]
    · rw [hstep, hlog]
      simp [SetValidator, Machine.emit, deliveries, validatorRead, validatorWrite]
    · rw [hstep]; exact hok
    · intro hnd hkeyed kv hkv
      simp only [List.map_cons, List.nodup_cons] at hnd
      have hvk : v.OperatorAddress = key.drop 1 := hkeyed key (List.mem_cons_self _ _) v hv
      have hother : ∀ k ∈ rest.map (List.drop 1), lookupKey k
          (SetValidator (m.emit (Event.GetValidator (key.drop 1) (some v)))
            (preparedValidator fw wl (key.drop 1) v)).store.validators
          = lookupKey k m.store.validators := by
        intro k hk
        rw [hlook]
        have hne : ¬ v.OperatorAddress = k := fun e => hnd.1 (by rw [← hvk, e]; exact hk)
        simp [hne]
      rcases List.mem_cons.mp hkv with e | e
      · subst e; exact hv
      · have hk1 : kv.1 ∈ rest.map (List.drop 1) := by
          rw [← hkeys]; exact List.mem_map_of_mem Prod.fst e
        rw [← hother kv.1 hk1]
        apply hwk hnd.2 _ kv e
        intro key' hmem v' hv'
        rw [hother _ (List.mem_map_of_mem _ hmem)] at hv'
        exact hkeyed key' (List.mem_cons_of_mem _ hmem) v' hv'

/-! ## The shape of the log -/

theorem prep_shape (fw : Framework) (ctx : Context) (st : Store) (wl : List String)
    (map : GoMap Bool) (hwl : whiteListLoop fw wl [] = .ok map)
    (hinv : fw.AssertInvariants ctx st = none) :
    ∃ (reads : List (Address × Validator)) (tail : List Event),
      reads.map Prod.fst = (st.validators.map Prod.fst).reverse
      ∧ (WellKeyed st → reads = st.validators.reverse)
      ∧ runLog fw ctx st wl
          = Event.AssertInvariants ::
              (deliveries redelegationRead redelegationWrite st.redelegations
                ++ deliveries unbondingRead unbondingWrite st.unbondingDelegations
                ++ deliveries validatorRead (validatorWrite fw wl) reads ++ tail)
      ∧ (tail = [Event.ApplyAndReturnValidatorSetUpdates none]
          ∨ ∃ s', tail = Event.ApplyAndReturnValidatorSetUpdates (some s')
              :: deliveries signingInfoRead signingInfoWrite s'.signingInfos) := by
  have hmap : ∀ s, (decide (wl.length > 0) && !(GoMap.index map s))
      = (decide (wl ≠ []) && decide (s ∉ wl)) := by
    intro s
    rw [whiteListLoop_index fw wl [] map hwl s]
    cases wl <;> simp [GoMap.index, GoMap.get]
  let m1 : Machine := { store := st, log := [Event.AssertInvariants] }
  let m2 : Machine := IterateRedelegations m1 redelegationCallback
  let m3 : Machine := IterateUnbondingDelegations m2 unbondingDelegationCallback
  have hu2 : m2.store.unbondingDelegations = st.unbondingDelegations :=
    (IterateRedelegations_frame m1).1
  have hv3 : m3.store.validators = st.validators := by
    show (IterateUnbondingDelegations m2 unbondingDelegationCallback).store.validators = _
    rw [IterateUnbondingDelegations_frame]
    exact (IterateRedelegations_frame m1).2
  have hlog3 : m3.log = Event.AssertInvariants ::
      (deliveries redelegationRead redelegationWrite st.redelegations
        ++ deliveries unbondingRead unbondingWrite st.unbondingDelegations) := by
    show (IterateUnbondingDelegations m2 unbondingDelegationCallback).log = _
    rw [IterateUnbondingDelegations_log, hu2]
    show (IterateRedelegations m1 redelegationCallback).log ++ _ = _
    rw [IterateRedelegations_log]
    rfl
  have hkeys : (KVStoreReversePrefixIterator m3.store).map (List.drop 1)
      = (st.validators.map Prod.fst).reverse := by
    rw [hv3.symm]
    simp [KVStoreReversePrefixIterator, ValidatorsKey, List.map_reverse, Function.comp_def]
  have hpresent : ∀ key ∈ KVStoreReversePrefixIterator m3.store,
      ∃ v, lookupKey (key.drop 1) m3.store.validators = some v := by
    intro key hkey
    apply lookupKey_isSome_of_mem
    have h1 : key.drop 1 ∈ (KVStoreReversePrefixIterator m3.store).map (List.drop 1) :=
      List.mem_map_of_mem _ hkey
    rw [hkeys, ← hv3] at h1
    simpa using h1
  obtain ⟨reads, hrk, hrlog, ⟨c, hok⟩, hwk⟩ := validatorLoop_log fw wl _ map hmap
    (KVStoreReversePrefixIterator m3.store) m3 0 hpresent
  have hwell : WellKeyed st → reads = st.validators.reverse := by
    rintro ⟨hnd, hkeyed⟩
    apply eq_of_keys_lookup (fun k => lookupKey k st.validators)
    · rw [hrk, hkeys, List.map_reverse]
    · intro kv hkv
      have h1 := hwk (by rw [hkeys]; exact List.nodup_reverse.mpr hnd)
        (by
          intro key _ v hv
          rw [hv3] at hv
          exact (hkeyed _ (lookupKey_mem _ _ _ hv)).symm) kv hkv
      rw [hv3] at h1
      exact h1
    · intro kv hkv
      exact lookupKey_of_mem _ hnd kv (List.mem_reverse.mp hkv)
  have hctx : ({ BlockHeight := ctx.BlockHeight } : Context) = ctx := rfl
  cases hap : fw.ApplyAndReturnValidatorSetUpdates ctx
      (validatorLoop fw (decide (wl.length > 0)) map
        (KVStoreReversePrefixIterator m3.store) m3 0).machine.store with
  | error msg =>
    refine ⟨reads, [Event.ApplyAndReturnValidatorSetUpdates none], by rw [hrk, hkeys], hwell,
      ?_, Or.inl rfl⟩
    simp only [runLog, prepForZeroHeightGenesis, hwl, Machine.emit, hinv,
      Context.WithBlockHeight, hctx, List.nil_append]
    split
    · rename_i a heq
      exact absurd (hok.symm.trans heq) (by simp)
    · split
      · show (validatorLoop fw (decide (wl.length > 0)) map
          (KVStoreReversePrefixIterator m3.store) m3 0).machine.log ++ [_] = _
        rw [hrlog, hlog3]
        simp
      · rename_i store heq
        exact absurd (hap.symm.trans heq) (by simp)
  | ok s' =>
    refine ⟨reads, Event.ApplyAndReturnValidatorSetUpdates (some s')
      :: deliveries signingInfoRead signingInfoWrite s'.signingInfos,
      by rw [hrk, hkeys], hwell, ?_, Or.inr ⟨s', rfl⟩⟩
    simp only [runLog, prepForZeroHeightGenesis, hwl, Machine.emit, hinv,
      Context.WithBlockHeight, hctx, List.nil_append]
    split
    · rename_i a heq
      exact absurd (hok.symm.trans heq) (by simp)
    · split
      · rename_i msg heq
        exact absurd (hap.symm.trans heq) (by simp)
      · rename_i store heq
        have hs : s' = store := by
          have h := hap.symm.trans heq
          simpa using h
        subst hs
        rw [IterateValidatorSigningInfos_log]
        show ((validatorLoop fw (decide (wl.length > 0)) map
          (KVStoreReversePrefixIterator m3.store) m3 0).machine.log ++ [_]) ++ _ = _
        rw [hrlog, hlog3]
        simp

/-! ## Deliveries and writes come in pairs -/

theorem writeBack_kinds (fw : Framework) (wl : List String) (r w : Event)
    (h : writeBack fw wl r = some w) :
    w.isWrite = true ∧ r.isWrite = false ∧ writeBack fw wl w = none := by
  cases r with
  | GetValidator addr found =>
    cases found with
    | none => simp [writeBack] at h
    | some v =>
      simp only [writeBack, Option.some.injEq] at h
      subst h
      simp [Event.isWrite, writeBack]
  | IterRedelegation red =>
    simp only [writeBack, Option.some.injEq] at h
    subst h
    simp [Event.isWrite, writeBack]
  | IterUnbondingDelegation ubd =>
    simp only [writeBack, Option.some.injEq] at h
    subst h
    simp [Event.isWrite, writeBack]
  | IterValidatorSigningInfo addr info =>
    simp only [writeBack, Option.some.injEq] at h
    subst h
    simp [Event.isWrite, writeBack]
  | AssertInvariants => simp [writeBack] at h
  | SetRedelegation red => simp [writeBack] at h
  | SetUnbondingDelegation ubd => simp [writeBack] at h
  | SetValidator v => simp [writeBack] at h
  | ApplyAndReturnValidatorSetUpdates after => simp [writeBack] at h
  | SetValidatorSigningInfo addr info => simp [writeBack] at h

theorem Blocks.append {fw : Framework} {wl : List String} {l1 l2 : List Event}
    (h1 : Blocks fw wl l1) (h2 : Blocks fw wl l2) : Blocks fw wl (l1 ++ l2) := by
  induction h1 with
  | nil => simpa using h2
  | other e rest hw hnw _ ih => exact Blocks.other e _ hw hnw ih
  | pair r w rest hw _ ih => exact Blocks.pair r w _ hw ih

theorem Blocks.of_deliveries {α : Type} (fw : Framework) (wl : List String)
    (deliver write : α → Event) (h : ∀ x, writeBack fw wl (deliver x) = some (write x))
    (xs : List α) : Blocks fw wl (deliveries deliver write xs) := by
  induction xs with
  | nil => exact Blocks.nil
  | cons x rest ih => exact Blocks.pair _ _ _ (h x) ih

theorem Blocks.read_write {fw : Framework} {wl : List String} {l : List Event}
    (h : Blocks fw wl l) (i : Nat) (r w : Event) (hr : l[i]? = some r)
    (hw : writeBack fw wl r = some w) : l[i + 1]? = some w := by
  induction h generalizing i with
  | nil => simp at hr
  | other e rest he _ _ ih =>
    cases i with
    | zero =>
      simp only [List.getElem?_cons_zero, Option.some.injEq] at hr
      subst hr
      rw [he] at hw
      exact absurd hw (by simp)
    | succ k =>
      simp only [List.getElem?_cons_succ] at hr ⊢
      exact ih k hr
  | pair r0 w0 rest h0 _ ih =>
    cases i with
    | zero =>
      simp only [List.getElem?_cons_zero, Option.some.injEq] at hr
      subst hr
      rw [h0] at hw
      simp only [Option.some.injEq] at hw
      subst hw
      simp
    | succ k =>
      cases k with
      | zero =>
        simp only [List.getElem?_cons_succ, List.getElem?_cons_zero, Option.some.injEq] at hr
        subst hr
        rw [(writeBack_kinds fw wl r0 w0 h0).2.2] at hw
        exact absurd hw (by simp)
      | succ j =>
        simp only [List.getElem?_cons_succ] at hr ⊢
        exact ih j hr

theorem Blocks.write_read {fw : Framework} {wl : List String} {l : List Event}
    (h : Blocks fw wl l) (j : Nat) (w : Event) (hj : l[j]? = some w)
    (hw : w.isWrite = true) :
    ∃ i r, j = i + 1 ∧ l[i]? = some r ∧ writeBack fw wl r = some w := by
  induction h generalizing j with
  | nil => simp at hj
  | other e rest _ he _ ih =>
    cases j with
    | zero =>
      simp only [List.getElem?_cons_zero, Option.some.injEq] at hj
      subst hj
      rw [he] at hw
      exact absurd hw (by simp)
    | succ k =>
      simp only [List.getElem?_cons_succ] at hj
      obtain ⟨i, r, hk, hi, hwb⟩ := ih k hj
      exact ⟨i + 1, r, by omega, by simpa using hi, hwb⟩
  | pair r0 w0 rest h0 _ ih =>
    cases j with
    | zero =>
      simp only [List.getElem?_cons_zero, Option.some.injEq] at hj
      subst hj
      rw [(writeBack_kinds fw wl _ w0 h0).2.1] at hw
      exact absurd hw (by simp)
    | succ k =>
      cases k with
      | zero =>
        simp only [List.getElem?_cons_succ, List.getElem?_cons_zero, Option.some.injEq] at hj
        subst hj
        exact ⟨0, r0, rfl, by simp, h0⟩
      | succ n =>
        simp only [List.getElem?_cons_succ] at hj
        obtain ⟨i, r, hk, hi, hwb⟩ := ih n hj
        exact ⟨i + 2, r, by omega, by simpa using hi, hwb⟩

theorem mem_deliveries {α : Type} (deliver write : α → Event) (xs : List α) (e : Event) :
    e ∈ deliveries deliver write xs ↔ ∃ x ∈ xs, e = deliver x ∨ e = write x := by
  induction xs with
  | nil => simp [deliveries]
  | cons x rest ih =>
    simp only [deliveries, List.mem_cons, ih]
    constructor
    · rintro (h | h | ⟨y, hy, h⟩)
      · exact ⟨x, Or.inl rfl, Or.inl h⟩
      · exact ⟨x, Or.inl rfl, Or.inr h⟩
      · exact ⟨y, Or.inr hy, h⟩
    · rintro ⟨y, hy | hy, h⟩
      · subst hy
        rcases h with h | h
        · exact Or.inl h
        · exact Or.inr (Or.inl h)
      · exact Or.inr (Or.inr ⟨y, hy, h⟩)

theorem prep_blocks (fw : Framework) (ctx : Context) (st : Store) (wl : List String) :
    Blocks fw wl (runLog fw ctx st wl) := by
  cases hwl : whiteListLoop fw wl [] with
  | error err =>
    have h : runLog fw ctx st wl = [] := by
      simp [runLog, prepForZeroHeightGenesis, hwl]
    rw [h]; exact Blocks.nil
  | ok map =>
    cases hinv : fw.AssertInvariants ctx st with
    | some msg =>
      have h : runLog fw ctx st wl = [Event.AssertInvariants] := by
        simp [runLog, prepForZeroHeightGenesis, hwl, Machine.emit, hinv]
      rw [h]
      exact Blocks.other _ _ rfl rfl Blocks.nil
    | none =>
      obtain ⟨reads, tail, _, _, hlog, htail⟩ := prep_shape fw ctx st wl map hwl hinv
      rw [hlog]
      refine Blocks.other _ _ rfl rfl ?_
      refine Blocks.append (Blocks.append (Blocks.append ?_ ?_) ?_) ?_
      · exact Blocks.of_deliveries fw wl redelegationRead redelegationWrite (fun _ => rfl) _
      · exact Blocks.of_deliveries fw wl unbondingRead unbondingWrite (fun _ => rfl) _
      · exact Blocks.of_deliveries fw wl validatorRead (validatorWrite fw wl) (fun _ => rfl) _
      · rcases htail with h | ⟨s', h⟩
        · rw [h]; exact Blocks.other _ _ rfl rfl Blocks.nil
        · rw [h]
          exact Blocks.other _ _ rfl rfl
            (Blocks.of_deliveries fw wl signingInfoRead signingInfoWrite (fun _ => rfl) _)

/-! ## The signing infos at the end of a run -/

theorem upsert_skip {β : Type} (a : Address) (v w : β) (l1 l2 : List (Address × β))
    (h : a ∉ l1.map Prod.fst) :
    upsert (fun kv => decide (kv.1 = a)) (a, w) (l1 ++ (a, v) :: l2) = l1 ++ (a, w) :: l2 := by
  induction l1 with
  | nil => simp [upsert]
  | cons hd tl ih =>
    obtain ⟨x, y⟩ := hd
    simp only [List.map_cons, List.mem_cons, not_or] at h
    have hx : ¬ x = a := fun e => h.1 e.symm
    simp [upsert, hx, ih h.2]

theorem signingInfos_iterate (done rest : List (Address × ValidatorSigningInfo)) (i : Int)
    (m : Machine)
    (hm : m.store.signingInfos
      = done.map (fun kv => (kv.1, zeroedSigningInfo kv.2)) ++ rest)
    (hnd : ((done ++ rest).map Prod.fst).Nodup) :
    (iterate (fun kv => Event.IterValidatorSigningInfo kv.1 kv.2)
        (fun _ kv => signingInfoCallback kv.1 kv.2) rest i m).store.signingInfos
      = (done ++ rest).map (fun kv => (kv.1, zeroedSigningInfo kv.2)) := by
  induction rest generalizing done i m with
  | nil => simpa [iterate] using hm
  | cons x rest ih =>
    obtain ⟨a, v⟩ := x
    have hnot : a ∉ (done.map (fun kv => (kv.1, zeroedSigningInfo kv.2))).map Prod.fst := by
      simp only [List.map_append, List.map_cons] at hnd
      have h1 := (List.nodup_append.mp hnd).2.2
      intro hmem
      simp only [List.map_map] at hmem
      have hmem' : a ∈ done.map Prod.fst := by simpa [Function.comp_def] using hmem
      exact h1 hmem' (List.mem_cons_self _ _) 
    simp only [iterate, signingInfoCallback, Bool.false_eq_true, if_false]
    have hstep := ih (done ++ [(a, v)]) (i + 1)
      (SetValidatorSigningInfo (m.emit (Event.IterValidatorSigningInfo a v)) a
        { v with StartHeight := 0 })
      (by
        simp only [SetValidatorSigningInfo, Machine.emit, hm]
        rw [upsert_skip a v _ _ _ hnot]
        simp [zeroedSigningInfo])
      (by simpa using hnd)
    simpa using hstep

theorem validatorLoop_signingInfos (fw : Framework) (applyWhiteList : Bool)
    (whiteListMap : GoMap Bool) (keys : List (List Nat)) (m : Machine) (counter : Int) :
    (validatorLoop fw applyWhiteList whiteListMap keys m counter).machine.store.signingInfos
      = m.store.signingInfos := by
  induction keys generalizing m counter with
  | nil => simp [validatorLoop]
  | cons key rest ih =>
    simp only [validatorLoop, GetValidator]
    cases hl : lookupKey (List.drop 1 key) m.store.validators with
    | none => simp [Machine.emit]
    | some v =>
      simp only
      rw [ih]
      simp [SetValidator, Machine.emit]

theorem prep_outcome (fw : Framework) (ctx : Context) (st : Store) (wl : List String)
    (map : GoMap Bool) (hwl : whiteListLoop fw wl [] = .ok map)
    (hinv : fw.AssertInvariants ctx st = none) :
    ∃ s₂ : Store, s₂.signingInfos = st.signingInfos
      ∧ (∀ msg, fw.ApplyAndReturnValidatorSetUpdates ctx s₂ = .error msg →
          (prepForZeroHeightGenesis fw ctx { store := st, log := [] } wl).result
            = .error (Abort.panic msg))
      ∧ (∀ s', fw.ApplyAndReturnValidatorSetUpdates ctx s₂ = .ok s' →
          (prepForZeroHeightGenesis fw ctx { store := st, log := [] } wl).result = .ok ()
          ∧ Event.ApplyAndReturnValidatorSetUpdates (some s') ∈ runLog fw ctx st wl
          ∧ ((s'.signingInfos.map Prod.fst).Nodup →
            (prepForZeroHeightGenesis fw ctx { store := st, log := [] } wl).machine.store.signingInfos
              = s'.signingInfos.map (fun kv => (kv.1, zeroedSigningInfo kv.2)))) := by
  have hmap : ∀ s, (decide (wl.length > 0) && !(GoMap.index map s))
      = (decide (wl ≠ []) && decide (s ∉ wl)) := by
    intro s
    rw [whiteListLoop_index fw wl [] map hwl s]
    cases wl <;> simp [GoMap.index, GoMap.get]
  let m1 : Machine := { store := st, log := [Event.AssertInvariants] }
  let m2 : Machine := IterateRedelegations m1 redelegationCallback
  let m3 : Machine := IterateUnbondingDelegations m2 unbondingDelegationCallback
  have hv3 : m3.store.validators = st.validators := by
    show (IterateUnbondingDelegations m2 unbondingDelegationCallback).store.validators = _
    rw [IterateUnbondingDelegations_frame]
    exact (IterateRedelegations_frame m1).2
  have hs3 : m3.store.signingInfos = st.signingInfos := by
    show (iterate Event.IterUnbondingDelegation unbondingDelegationCallback
      m2.store.unbondingDelegations 0 m2).store.signingInfos = _
    rw [iterate_store (fun s => s.signingInfos) _ _
      (fun i x m => by simp [unbondingDelegationCallback_eq, SetUnbondingDelegation])]
    show (iterate Event.IterRedelegation redelegationCallback
      m1.store.redelegations 0 m1).store.signingInfos = _
    rw [iterate_store (fun s => s.signingInfos) _ _
      (fun i x m => by simp [redelegationCallback_eq, SetRedelegation])]
  have hkeys : (KVStoreReversePrefixIterator m3.store).map (List.drop 1)
      = (st.validators.map Prod.fst).reverse := by
    rw [hv3.symm]
    simp [KVStoreReversePrefixIterator, ValidatorsKey, List.map_reverse, Function.comp_def]
  have hpresent : ∀ key ∈ KVStoreReversePrefixIterator m3.store,
      ∃ v, lookupKey (key.drop 1) m3.store.validators = some v := by
    intro key hkey
    apply lookupKey_isSome_of_mem
    have h1 : key.drop 1 ∈ (KVStoreReversePrefixIterator m3.store).map (List.drop 1) :=
      List.mem_map_of_mem _ hkey
    rw [hkeys, ← hv3] at h1
    simpa using h1
  obtain ⟨reads, _, _, ⟨c, hok⟩, _⟩ := validatorLoop_log fw wl _ map hmap
    (KVStoreReversePrefixIterator m3.store) m3 0 hpresent
  have hctx : ({ BlockHeight := ctx.BlockHeight } : Context) = ctx := rfl
  refine ⟨(validatorLoop fw (decide (wl.length > 0)) map
    (KVStoreReversePrefixIterator m3.store) m3 0).machine.store, ?_, ?_, ?_⟩
  · rw [validatorLoop_signingInfos]; exact hs3
  · intro msg hap
    simp only [prepForZeroHeightGenesis, hwl, Machine.emit, hinv,
      Context.WithBlockHeight, hctx, List.nil_append]
    split
    · rename_i a heq
      exact absurd (hok.symm.trans heq) (by simp)
    · split
      · rename_i msg' heq
        have h := hap.symm.trans heq
        simp only [Except.error.injEq] at h
        rw [h]
      · rename_i store heq
        exact absurd (hap.symm.trans heq) (by simp)
  · intro s' hap
    simp only [runLog, prepForZeroHeightGenesis, hwl, Machine.emit, hinv,
      Context.WithBlockHeight, hctx, List.nil_append]
    split
    · rename_i a heq
      exact absurd (hok.symm.trans heq) (by simp)
    · split
      · rename_i msg heq
        exact absurd (hap.symm.trans heq) (by simp)
      · rename_i store heq
        have hs : s' = store := by
          have h := hap.symm.trans heq
          simpa using h
        subst hs
        refine ⟨rfl, ?_, ?_⟩
        · rw [IterateValidatorSigningInfos_log]
          simp
        · intro hnd
          unfold IterateValidatorSigningInfos
          have h := signingInfos_iterate [] s'.signingInfos 0
            { store := s', log := (validatorLoop fw (decide (wl.length > 0)) map
                (KVStoreReversePrefixIterator m3.store) m3 0).machine.log
                ++ [Event.ApplyAndReturnValidatorSetUpdates (some s')] }
            (by simp) (by simpa using hnd)
          simpa using h

/-! ## Claims about `prepForZeroHeightGenesis` -/

theorem sample_whitelist_valid : ValidWhiteList sampleFramework ["assetvaloperb"] := by
  intro addr h
  simp only [List.mem_singleton] at h
  subst h
  exact ⟨_, rfl⟩

theorem sample_store_wellKeyed : WellKeyed sampleStore := by
  constructor
  · decide
  · decide

theorem apply_event_delivers (fw : Framework) (ctx : Context) (st : Store)
    (wl : List String) (hwl : ValidWhiteList fw wl) (hinv : fw.AssertInvariants ctx st = none)
    (s' : Store)
    (hs' : Event.ApplyAndReturnValidatorSetUpdates (some s') ∈ runLog fw ctx st wl)
    (kv : Address × ValidatorSigningInfo) (hkv : kv ∈ s'.signingInfos) :
    Event.IterValidatorSigningInfo kv.1 kv.2 ∈ runLog fw ctx st wl := by
  obtain ⟨map, hmap⟩ := whiteListLoop_ok_of_valid fw wl hwl []
  obtain ⟨reads, tail, _, _, hlog, htail⟩ := prep_shape fw ctx st wl map hmap hinv
  rw [hlog] at hs' ⊢
  have hn1 : Event.ApplyAndReturnValidatorSetUpdates (some s')
      ∉ deliveries redelegationRead redelegationWrite st.redelegations := by
    rw [mem_deliveries]
    rintro ⟨x, _, h | h⟩ <;> simp [redelegationRead, redelegationWrite] at h
  have hn2 : Event.ApplyAndReturnValidatorSetUpdates (some s')
      ∉ deliveries unbondingRead unbondingWrite st.unbondingDelegations := by
    rw [mem_deliveries]
    rintro ⟨x, _, h | h⟩ <;> simp [unbondingRead, unbondingWrite] at h
  have hn3 : Event.ApplyAndReturnValidatorSetUpdates (some s')
      ∉ deliveries validatorRead (validatorWrite fw wl) reads := by
    rw [mem_deliveries]
    rintro ⟨x, _, h | h⟩ <;> simp [validatorRead, validatorWrite] at h
  have htl : Event.ApplyAndReturnValidatorSetUpdates (some s') ∈ tail := by
    simpa [hn1, hn2, hn3] using hs'
  rcases htail with h | ⟨s'', h⟩
  · rw [h] at htl
    simp at htl
  · rw [h] at htl
    have hn4 : Event.ApplyAndReturnValidatorSetUpdates (some s')
        ∉ deliveries signingInfoRead signingInfoWrite s''.signingInfos := by
      rw [mem_deliveries]
      rintro ⟨x, _, h | h⟩ <;> simp [signingInfoRead, signingInfoWrite] at h
    have hs : s' = s'' := by simpa [hn4] using htl
    subst hs
    have h1 : Event.IterValidatorSigningInfo kv.1 kv.2
        ∈ deliveries signingInfoRead signingInfoWrite s'.signingInfos :=
      (mem_deliveries _ _ _ _).mpr ⟨kv, hkv, Or.inl rfl⟩
    rw [h]
    simp [h1]

/-- C1: in every run, each redelegation and each unbonding delegation the
keeper iteration delivers is written back at once with `CreationHeight = 0`
in every entry, the entries otherwise as delivered and in the same number and
order, and each signing info is written back under the same consensus address
with `StartHeight = 0` and otherwise as delivered.  When the whitelist is
valid and the invariants hold, every stored redelegation and unbonding
delegation is delivered, and so is every signing info of the stores the
validator-set update returns.  That update is called on stores whose signing
infos are those of the start: if it panics the run ends with its panic, and
if it returns, the run completes, every signing info of the stores it returns
is delivered and written back with `StartHeight = 0`, and (their keys being
distinct) the signing infos the run leaves are exactly those with
`StartHeight = 0`. -/
theorem prep_writes_back_zero_heights (fw : Framework) (ctx : Context) (st : Store)
    (jailWhiteList : List String) :
    (∀ i red, (runLog fw ctx st jailWhiteList)[i]? = some (Event.IterRedelegation red) →
      (runLog fw ctx st jailWhiteList)[i + 1]? = some (Event.SetRedelegation
        { red with Entries := red.Entries.map (fun e => { e with CreationHeight := 0 }) }))
    ∧ (∀ i ubd,
      (runLog fw ctx st jailWhiteList)[i]? = some (Event.IterUnbondingDelegation ubd) →
      (runLog fw ctx st jailWhiteList)[i + 1]? = some (Event.SetUnbondingDelegation
        { ubd with Entries := ubd.Entries.map (fun e => { e with CreationHeight := 0 }) }))
    ∧ (∀ i addr info,
      (runLog fw ctx st jailWhiteList)[i]? = some (Event.IterValidatorSigningInfo addr info) →
      (runLog fw ctx st jailWhiteList)[i + 1]?
        = some (Event.SetValidatorSigningInfo addr { info with StartHeight := 0 }))
    ∧ (ValidWhiteList fw jailWhiteList → fw.AssertInvariants ctx st = none →
      (∀ red ∈ st.redelegations,
        Event.IterRedelegation red ∈ runLog fw ctx st jailWhiteList)
      ∧ (∀ ubd ∈ st.unbondingDelegations,
        Event.IterUnbondingDelegation ubd ∈ runLog fw ctx st jailWhiteList)
      ∧ (∀ s', Event.ApplyAndReturnValidatorSetUpdates (some s')
            ∈ runLog fw ctx st jailWhiteList →
          ∀ kv ∈ s'.signingInfos,
            Event.IterValidatorSigningInfo kv.1 kv.2 ∈ runLog fw ctx st jailWhiteList))
    ∧ (ValidWhiteList fw jailWhiteList → fw.AssertInvariants ctx st = none →
      ∃ s₂ : Store, s₂.signingInfos = st.signingInfos
        ∧ (∀ msg, fw.ApplyAndReturnValidatorSetUpdates ctx s₂ = .error msg →
          (prepForZeroHeightGenesis fw ctx { store := st, log := [] } jailWhiteList).result
            = .error (Abort.panic msg))
        ∧ (∀ s', fw.ApplyAndReturnValidatorSetUpdates ctx s₂ = .ok s' →
          (prepForZeroHeightGenesis fw ctx { store := st, log := [] } jailWhiteList).result
            = .ok ()
          ∧ Event.ApplyAndReturnValidatorSetUpdates (some s')
              ∈ runLog fw ctx st jailWhiteList
          ∧ (∀ kv ∈ s'.signingInfos, ∃ i,
              (runLog fw ctx st jailWhiteList)[i]?
                = some (Event.IterValidatorSigningInfo kv.1 kv.2)
              ∧ (runLog fw ctx st jailWhiteList)[i + 1]?
                = some (Event.SetValidatorSigningInfo kv.1 { kv.2 with StartHeight := 0 }))
          ∧ ((s'.signingInfos.map Prod.fst).Nodup →
              (prepForZeroHeightGenesis fw ctx { store := st, log := [] }
                  jailWhiteList).machine.store.signingInfos
                = s'.signingInfos.map (fun kv => (kv.1, { kv.2 with StartHeight := 0 }))))) := by
  have hb := prep_blocks fw ctx st jailWhiteList
  refine ⟨?_, ?_, ?_, ?_, ?_⟩
  · intro i red h
    exact hb.read_write i _ _ h rfl
  · intro i ubd h
    exact hb.read_write i _ _ h rfl
  · intro i addr info h
    exact hb.read_write i _ _ h rfl
  · intro hwl hinv
    obtain ⟨map, hmap⟩ := whiteListLoop_ok_of_valid fw jailWhiteList hwl []
    obtain ⟨reads, tail, _, _, hlog, htail⟩ := prep_shape fw ctx st jailWhiteList map hmap hinv
    refine ⟨?_, ?_, ?_⟩
    · intro red hred
      rw [hlog]
      have h1 : Event.IterRedelegation red
          ∈ deliveries redelegationRead redelegationWrite st.redelegations :=
        (mem_deliveries _ _ _ _).mpr ⟨red, hred, Or.inl rfl⟩
      simp [h1]
    · intro ubd hubd
      rw [hlog]
      have h1 : Event.IterUnbondingDelegation ubd
          ∈ deliveries unbondingRead unbondingWrite st.unbondingDelegations :=
        (mem_deliveries _ _ _ _).mpr ⟨ubd, hubd, Or.inl rfl⟩
      simp [h1]
    · intro s' hs' kv hkv
      exact apply_event_delivers fw ctx st jailWhiteList hwl hinv s' hs' kv hkv
  · intro hwl hinv
    obtain ⟨map, hmap⟩ := whiteListLoop_ok_of_valid fw jailWhiteList hwl []
    obtain ⟨s₂, hs2, herr, hrun⟩ := prep_outcome fw ctx st jailWhiteList map hmap hinv
    refine ⟨s₂, hs2, herr, ?_⟩
    intro s' hap
    obtain ⟨hres, hmem, hfinal⟩ := hrun s' hap
    refine ⟨hres, hmem, ?_, hfinal⟩
    intro kv hkv
    obtain ⟨i, hi⟩ := List.getElem?_of_mem
      (apply_event_delivers fw ctx st jailWhiteList hwl hinv s' hmem kv hkv)
    exact ⟨i, hi, hb.read_write i _ _ hi rfl⟩

/-- C1 on the sample stores: the one redelegation, read with creation heights
10 and 11, is delivered and written back with both at 0; the run completes,
the one signing info, read with start height 33, is written back with start
height 0, and the signing infos the run leaves are that record alone. -/
theorem prep_writes_back_zero_heights_witness :
    (runLog sampleFramework sampleContext sampleStore ["assetvaloperb"])[2]?
      = some (Event.SetRedelegation
          { DelegatorAddress := [1], ValidatorSrcAddress := [97], ValidatorDstAddress := [98],
            Entries := [⟨0, 1, 2, 3⟩, ⟨0, 4, 5, 6⟩] })
    ∧ Event.IterRedelegation
          { DelegatorAddress := [1], ValidatorSrcAddress := [97], ValidatorDstAddress := [98],
            Entries := [⟨10, 1, 2, 3⟩, ⟨11, 4, 5, 6⟩] }
        ∈ runLog sampleFramework sampleContext sampleStore ["assetvaloperb"]
    ∧ (runLog sampleFramework sampleContext sampleStore ["assetvaloperb"])[11]?
      = some (Event.SetValidatorSigningInfo [50]
          { Address := [50], StartHeight := 0, IndexOffset := 1, JailedUntil := 0,
            Tombstoned := false, MissedBlocksCounter := 2 })
    ∧ (prepForZeroHeightGenesis sampleFramework sampleContext
        { store := sampleStore, log := [] } ["assetvaloperb"]).result = .ok ()
    ∧ (prepForZeroHeightGenesis sampleFramework sampleContext
        { store := sampleStore, log := [] } ["assetvaloperb"]).machine.store.signingInfos
      = [([50], { Address := [50], StartHeight := 0, IndexOffset := 1, JailedUntil := 0,
                  Tombstoned := false, MissedBlocksCounter := 2 })] := by
  have h := prep_writes_back_zero_heights sampleFramework sampleContext sampleStore
    ["assetvaloperb"]
  obtain ⟨s₂, hs2, _, hrun⟩ := h.2.2.2.2 sample_whitelist_valid rfl
  obtain ⟨hres, _, _, hfinal⟩ := hrun s₂ rfl
  refine ⟨h.1 1
      { DelegatorAddress := [1], ValidatorSrcAddress := [97], ValidatorDstAddress := [98],
        Entries := [⟨10, 1, 2, 3⟩, ⟨11, 4, 5, 6⟩] } (by decide),
    (h.2.2.2.1 sample_whitelist_valid rfl).1 _ (by decide),
    h.2.2.1 10 [50]
      { Address := [50], StartHeight := 33, IndexOffset := 1, JailedUntil := 0,
        Tombstoned := false, MissedBlocksCounter := 2 } (by decide), hres, ?_⟩
  rw [hfinal (by rw [hs2]; decide), hs2]
  rfl

/-- C2: in every run, the validator read under a key is written back at once
with `UnbondingHeight = 0`, with `Jailed` equal to its old `Jailed` or-ed with
"the whitelist is non-empty and does not contain the bech32 form of the key's
address", and with every other field as read; so with an empty whitelist the
flag is unchanged and a jailed validator stays jailed.  When the whitelist is
valid, the invariants hold and the store is keyed by operator address, every
stored validator is read and written back so, the address being its operator
address. -/
theorem prep_validator_write_back (fw : Framework) (ctx : Context) (st : Store)
    (jailWhiteList : List String) :
    (∀ i addr v,
      (runLog fw ctx st jailWhiteList)[i]? = some (Event.GetValidator addr (some v)) →
      (runLog fw ctx st jailWhiteList)[i + 1]? = some (Event.SetValidator
        { v with
          UnbondingHeight := 0
          Jailed := v.Jailed || (decide (jailWhiteList ≠ [])
            && decide (fw.ValAddressString addr ∉ jailWhiteList)) }))
    ∧ (∀ i addr v w,
      (runLog fw ctx st jailWhiteList)[i]? = some (Event.GetValidator addr (some v)) →
      (runLog fw ctx st jailWhiteList)[i + 1]? = some (Event.SetValidator w) →
      (jailWhiteList = [] → w.Jailed = v.Jailed) ∧ (v.Jailed = true → w.Jailed = true))
    ∧ (ValidWhiteList fw jailWhiteList → fw.AssertInvariants ctx st = none → WellKeyed st →
      ∀ kv ∈ st.validators, ∃ i,
        (runLog fw ctx st jailWhiteList)[i]?
          = some (Event.GetValidator kv.2.OperatorAddress (some kv.2))
        ∧ (runLog fw ctx st jailWhiteList)[i + 1]? = some (Event.SetValidator
          { kv.2 with
            UnbondingHeight := 0
            Jailed := kv.2.Jailed || (decide (jailWhiteList ≠ [])
              && decide (fw.ValAddressString kv.2.OperatorAddress ∉ jailWhiteList)) })) := by
  have hb := prep_blocks fw ctx st jailWhiteList
  have hfirst : ∀ i addr v,
      (runLog fw ctx st jailWhiteList)[i]? = some (Event.GetValidator addr (some v)) →
      (runLog fw ctx st jailWhiteList)[i + 1]? = some (Event.SetValidator
        { v with
          UnbondingHeight := 0
          Jailed := v.Jailed || (decide (jailWhiteList ≠ [])
            && decide (fw.ValAddressString addr ∉ jailWhiteList)) }) := by
    intro i addr v h
    exact hb.read_write i _ _ h rfl
  refine ⟨hfirst, ?_, ?_⟩
  · intro i addr v w hr hw
    rw [hfirst i addr v hr] at hw
    simp only [Option.some.injEq, Event.SetValidator.injEq] at hw
    subst hw
    constructor
    · intro he; subst he; simp
    · intro hj; simp [hj]
  · intro hwl hinv hwk kv hkv
    obtain ⟨map, hmap⟩ := whiteListLoop_ok_of_valid fw jailWhiteList hwl []
    obtain ⟨reads, tail, _, hreads, hlog, _⟩ :=
      prep_shape fw ctx st jailWhiteList map hmap hinv
    have hmem : validatorRead kv ∈ runLog fw ctx st jailWhiteList := by
      rw [hlog, hreads hwk]
      have h1 : validatorRead kv
          ∈ deliveries validatorRead (validatorWrite fw jailWhiteList) st.validators.reverse :=
        (mem_deliveries _ _ _ _).mpr ⟨kv, List.mem_reverse.mpr hkv, Or.inl rfl⟩
      simp [h1]
    obtain ⟨i, hi⟩ := List.getElem?_of_mem hmem
    have hkey : kv.1 = kv.2.OperatorAddress := hwk.2 kv hkv
    have hi' : (runLog fw ctx st jailWhiteList)[i]?
        = some (Event.GetValidator kv.2.OperatorAddress (some kv.2)) := by
      rw [hi, validatorRead, hkey]
    exact ⟨i, hi', hfirst i _ _ hi'⟩

/-- C2 on the sample stores with a whitelist that names the validator `b`
only: the jailed validator `b` stays jailed, the validator `a` is jailed, and
both get `UnbondingHeight = 0`. -/
theorem prep_validator_write_back_witness :
    ∃ i,
      (runLog sampleFramework sampleContext sampleStore ["assetvaloperb"])[i]?
        = some (Event.GetValidator [97] (some (sampleValidator [97] false 40)))
      ∧ (runLog sampleFramework sampleContext sampleStore ["assetvaloperb"])[i + 1]?
        = some (Event.SetValidator (sampleValidator [97] true 0)) :=
  (prep_validator_write_back sampleFramework sampleContext sampleStore
    ["assetvaloperb"]).2.2 sample_whitelist_valid rfl sample_store_wellKeyed
    ([97], sampleValidator [97] false 40) (by decide)

/-- C3 as stated fails: with the whitelist naming validator `b` only, the
validator `a` is read with `Jailed = false` and written back with
`Jailed = true`, a change to a field that is not a height. -/
theorem prep_changes_jailed_flag :
    (runLog sampleFramework sampleContext sampleStore ["assetvaloperb"])[7]?
      = some (Event.GetValidator [97] (some (sampleValidator [97] false 40)))
    ∧ (runLog sampleFramework sampleContext sampleStore ["assetvaloperb"])[8]?
      = some (Event.SetValidator (sampleValidator [97] true 0))
    ∧ sampleValidator [97] true 0
      ≠ { sampleValidator [97] false 40 with UnbondingHeight := 0 } := by
  decide

theorem writeBack_inv (fw : Framework) (wl : List String) (r w : Event)
    (h : writeBack fw wl r = some w) :
    (∃ red, r = Event.IterRedelegation red
        ∧ w = Event.SetRedelegation (zeroedRedelegation red))
    ∨ (∃ ubd, r = Event.IterUnbondingDelegation ubd
        ∧ w = Event.SetUnbondingDelegation (zeroedUnbondingDelegation ubd))
    ∨ (∃ addr v, r = Event.GetValidator addr (some v)
        ∧ w = Event.SetValidator (preparedValidator fw wl addr v))
    ∨ (∃ addr info, r = Event.IterValidatorSigningInfo addr info
        ∧ w = Event.SetValidatorSigningInfo addr (zeroedSigningInfo info)) := by
  cases r with
  | GetValidator addr found =>
    cases found with
    | none => simp [writeBack] at h
    | some v =>
      simp only [writeBack, Option.some.injEq] at h
      exact Or.inr (Or.inr (Or.inl ⟨addr, v, rfl, h.symm⟩))
  | IterRedelegation red =>
    simp only [writeBack, Option.some.injEq] at h
    exact Or.inl ⟨red, rfl, h.symm⟩
  | IterUnbondingDelegation ubd =>
    simp only [writeBack, Option.some.injEq] at h
    exact Or.inr (Or.inl ⟨ubd, rfl, h.symm⟩)
  | IterValidatorSigningInfo addr info =>
    simp only [writeBack, Option.some.injEq] at h
    exact Or.inr (Or.inr (Or.inr ⟨addr, info, rfl, h.symm⟩))
  | AssertInvariants => simp [writeBack] at h
  | SetRedelegation red => simp [writeBack] at h
  | SetUnbondingDelegation ubd => simp [writeBack] at h
  | SetValidator v => simp [writeBack] at h
  | ApplyAndReturnValidatorSetUpdates after => simp [writeBack] at h
  | SetValidatorSigningInfo addr info => simp [writeBack] at h

/-- C3 amended: every record the routine writes to the staking and slashing
stores is the record delivered by the keeper call just before it, with its
height fields (`CreationHeight` of every entry, `UnbondingHeight`,
`StartHeight`) set to 0 and no other field changed, except that a validator's
`Jailed` flag is or-ed with "the whitelist is non-empty and does not contain
the validator's address"; with an empty whitelist only height fields change. -/
theorem prep_writes_are_resets (fw : Framework) (ctx : Context) (st : Store)
    (jailWhiteList : List String) :
    (∀ j red, (runLog fw ctx st jailWhiteList)[j]? = some (Event.SetRedelegation red) →
      ∃ i r, j = i + 1
        ∧ (runLog fw ctx st jailWhiteList)[i]? = some (Event.IterRedelegation r)
        ∧ red = { r with
            Entries := r.Entries.map (fun e => { e with CreationHeight := 0 }) })
    ∧ (∀ j ubd,
      (runLog fw ctx st jailWhiteList)[j]? = some (Event.SetUnbondingDelegation ubd) →
      ∃ i r, j = i + 1
        ∧ (runLog fw ctx st jailWhiteList)[i]? = some (Event.IterUnbondingDelegation r)
        ∧ ubd = { r with
            Entries := r.Entries.map (fun e => { e with CreationHeight := 0 }) })
    ∧ (∀ j w, (runLog fw ctx st jailWhiteList)[j]? = some (Event.SetValidator w) →
      ∃ i addr v, j = i + 1
        ∧ (runLog fw ctx st jailWhiteList)[i]? = some (Event.GetValidator addr (some v))
        ∧ w = { v with
            UnbondingHeight := 0
            Jailed := v.Jailed || (decide (jailWhiteList ≠ [])
              && decide (fw.ValAddressString addr ∉ jailWhiteList)) })
    ∧ (∀ j addr info,
      (runLog fw ctx st jailWhiteList)[j]? = some (Event.SetValidatorSigningInfo addr info) →
      ∃ i r, j = i + 1
        ∧ (runLog fw ctx st jailWhiteList)[i]?
            = some (Event.IterValidatorSigningInfo addr r)
        ∧ info = { r with StartHeight := 0 })
    ∧ (jailWhiteList = [] →
      ∀ j w, (runLog fw ctx st jailWhiteList)[j]? = some (Event.SetValidator w) →
        ∃ i addr v, j = i + 1
          ∧ (runLog fw ctx st jailWhiteList)[i]? = some (Event.GetValidator addr (some v))
          ∧ w = { v with UnbondingHeight := 0 }) := by
  have hb := prep_blocks fw ctx st jailWhiteList
  have hval : ∀ j w, (runLog fw ctx st jailWhiteList)[j]? = some (Event.SetValidator w) →
      ∃ i addr v, j = i + 1
        ∧ (runLog fw ctx st jailWhiteList)[i]? = some (Event.GetValidator addr (some v))
        ∧ w = preparedValidator fw jailWhiteList addr v := by
    intro j w h
    obtain ⟨i, r, hj, hi, hwb⟩ := hb.write_read j _ h rfl
    rcases writeBack_inv fw jailWhiteList r _ hwb with
      ⟨x, _, hw⟩ | ⟨x, _, hw⟩ | ⟨addr, v, hr, hw⟩ | ⟨a, x, _, hw⟩
    · simp at hw
    · simp at hw
    · simp only [Event.SetValidator.injEq] at hw
      exact ⟨i, addr, v, hj, hr ▸ hi, hw⟩
    · simp at hw
  refine ⟨?_, ?_, ?_, ?_, ?_⟩
  · intro j red h
    obtain ⟨i, r, hj, hi, hwb⟩ := hb.write_read j _ h rfl
    rcases writeBack_inv fw jailWhiteList r _ hwb with
      ⟨x, hr, hw⟩ | ⟨x, _, hw⟩ | ⟨addr, v, _, hw⟩ | ⟨a, x, _, hw⟩
    · simp only [Event.SetRedelegation.injEq] at hw
      exact ⟨i, x, hj, hr ▸ hi, hw⟩
    · simp at hw
    · simp at hw
    · simp at hw
  · intro j ubd h
    obtain ⟨i, r, hj, hi, hwb⟩ := hb.write_read j _ h rfl
    rcases writeBack_inv fw jailWhiteList r _ hwb with
      ⟨x, _, hw⟩ | ⟨x, hr, hw⟩ | ⟨addr, v, _, hw⟩ | ⟨a, x, _, hw⟩
    · simp at hw
    · simp only [Event.SetUnbondingDelegation.injEq] at hw
      exact ⟨i, x, hj, hr ▸ hi, hw⟩
    · simp at hw
    · simp at hw
  · exact hval
  · intro j addr info h
    obtain ⟨i, r, hj, hi, hwb⟩ := hb.write_read j _ h rfl
    rcases writeBack_inv fw jailWhiteList r _ hwb with
      ⟨x, _, hw⟩ | ⟨x, _, hw⟩ | ⟨a, v, _, hw⟩ | ⟨a, x, hr, hw⟩
    · simp at hw
    · simp at hw
    · simp at hw
    · simp only [Event.SetValidatorSigningInfo.injEq] at hw
      obtain ⟨ha, hx⟩ := hw
      subst ha
      exact ⟨i, x, hj, hr ▸ hi, hx⟩
  · intro hempty j w h
    obtain ⟨i, addr, v, hj, hi, hw⟩ := hval j w h
    refine ⟨i, addr, v, hj, hi, ?_⟩
    rw [hw]
    subst hempty
    simp [preparedValidator, jailedAfter]

/-- C3 amended, on the sample stores with an empty whitelist: the write at
position 8 follows the read of validator `a` and differs from it in
`UnbondingHeight` only. -/
theorem prep_writes_are_resets_witness :
    ∃ i addr v, 8 = i + 1
      ∧ (runLog sampleFramework sampleContext sampleStore [])[i]?
          = some (Event.GetValidator addr (some v))
      ∧ sampleValidator [97] false 0 = { v with UnbondingHeight := 0 } :=
  (prep_writes_are_resets sampleFramework sampleContext sampleStore []).2.2.2.2 rfl 8
    (sampleValidator [97] false 0) (by decide)

end app

namespace types

/-- C10: the three address prefixes are `asset`, `assetvaloper` and
`assetvalcons`, each public-key prefix is its address prefix followed by
`pub`, the six prefixes are pairwise distinct, and each starts with
`Bech32MainPrefix`. -/
theorem bech32_prefixes_consistent :
    Bech32PrefixAccAddr = "asset"
    ∧ Bech32PrefixValAddr = "assetvaloper"
    ∧ Bech32PrefixConsAddr = "assetvalcons"
    ∧ Bech32PrefixAccPub = Bech32PrefixAccAddr ++ "pub"
    ∧ Bech32PrefixValPub = Bech32PrefixValAddr ++ "pub"
    ∧ Bech32PrefixConsPub = Bech32PrefixConsAddr ++ "pub"
    ∧ Bech32PrefixAccPub = "assetpub"
    ∧ Bech32PrefixValPub = "assetvaloperpub"
    ∧ Bech32PrefixConsPub = "assetvalconspub"
    ∧ allBech32Prefixes.Pairwise (fun p q => p ≠ q)
    ∧ (∀ p ∈ allBech32Prefixes, Bech32MainPrefix.data <+: p.data) := by
  decide

end types
